import Mathlib

/-!
Verification development for the Myula compiler and virtual machine
(a Lua-subset compiler: IR, lifetime scanner, linear-scan register
allocator, bytecode emitter, register VM with mark-and-sweep GC).

The definitions below are a shallow embedding of the Rust sources:
  * `src/common/object.rs`            — `LuaValue`, its `PartialEq` and `Hash`
  * `src/backend/translator/emitter.rs` — `add_constant` / constant pool
  * `src/backend/translator/scanner.rs` — lifetimes and register allocation
  * `src/backend/vm/stack.rs`         — `StackFrame`, `GlobalStack`
  * `src/backend/vm/dispatch/*.rs`    — the opcode handlers
  * `src/backend/vm/heap.rs`, `src/backend/vm/mod.rs` — heap, mark, sweep

Machine integers (`usize`, `u16`, `u8`) are modelled as `Nat`; the VM never
relies on wrap-around for them.  `f64` is modelled bit-precisely by its
64-bit pattern together with the IEEE-754 equality predicate (`F64.beq`),
which is all the embedded code inspects.
-/

namespace Myula

/-! ## IEEE-754 binary64 values, by bit pattern

Rust `f64` as used by the sources: `PartialEq` (`==`) and `to_bits` (the
`Hash` impl hashes `n.to_bits()`).  In binary64, every non-NaN, non-zero
value has exactly one bit pattern; `0.0` (bits 0) and `-0.0` (bits 2^63)
are distinct patterns of numerically equal values; NaNs compare unequal
to everything, including themselves. -/

structure F64 where
  bits : Nat
  deriving DecidableEq, Repr

namespace F64

def exponentField (x : F64) : Nat := x.bits / 2 ^ 52 % 2 ^ 11

def mantissaField (x : F64) : Nat := x.bits % 2 ^ 52

def isNaN (x : F64) : Bool := decide (exponentField x = 2047 ∧ mantissaField x ≠ 0)

def isZero (x : F64) : Bool := decide (x.bits = 0 ∨ x.bits = 2 ^ 63)

/-- Rust `f64 == f64` (IEEE numeric equality), expressed on bit patterns. -/
def beq (x y : F64) : Bool :=
  if isNaN x || isNaN y then false
  else if isZero x && isZero y then true
  else decide (x.bits = y.bits)

/-- `0.0` -/
def zero : F64 := ⟨0⟩

/-- `-0.0` -/
def negZero : F64 := ⟨2 ^ 63⟩

theorem isNaN_congr {x y : F64} (h : x.bits = y.bits) : isNaN x = isNaN y := by
  simp [isNaN, exponentField, mantissaField, h]

theorem isZero_congr {x y : F64} (h : x.bits = y.bits) : isZero x = isZero y := by
  simp [isZero, h]

theorem beq_eq_true_iff {x y : F64} :
    beq x y = true ↔
      isNaN x = false ∧ isNaN y = false ∧
        ((isZero x = true ∧ isZero y = true) ∨ x.bits = y.bits) := by
  unfold beq
  cases hx : isNaN x <;> cases hy : isNaN y <;>
    cases hzx : isZero x <;> cases hzy : isZero y <;> simp

theorem beq_symm (x y : F64) : beq x y = beq y x := by
  rw [Bool.eq_iff_iff, beq_eq_true_iff, beq_eq_true_iff]
  constructor <;> rintro ⟨h1, h2, h3⟩ <;>
    exact ⟨h2, h1, h3.imp (fun hp => ⟨hp.2, hp.1⟩) Eq.symm⟩

theorem beq_trans {x y z : F64} (h1 : beq x y = true) (h2 : beq y z = true) :
    beq x z = true := by
  rw [beq_eq_true_iff] at h1 h2 ⊢
  obtain ⟨hx, _, hor1⟩ := h1
  obtain ⟨_, hz, hor2⟩ := h2
  refine ⟨hx, hz, ?_⟩
  rcases hor1 with ⟨zx, zy⟩ | hb1
  · rcases hor2 with ⟨_, zz⟩ | hb2
    · exact Or.inl ⟨zx, zz⟩
    · exact Or.inl ⟨zx, (isZero_congr hb2).symm.trans zy⟩
  · rcases hor2 with ⟨zy, zz⟩ | hb2
    · exact Or.inl ⟨(isZero_congr hb1).trans zy, zz⟩
    · exact Or.inr (hb1.trans hb2)

end F64

/-! ## `LuaValue` (`src/common/object.rs`)

Heap pointers (`*mut GCObject<...>`) are modelled as `Nat` addresses;
`CFunction` pointers and `UserData` pointers likewise.  `TempString` holds
an owned string, exactly as in the source. -/

inductive LuaValue where
  | Nil : LuaValue
  | Number (n : F64) : LuaValue
  | Boolean (b : Bool) : LuaValue
  | String (ptr : Nat) : LuaValue
  | Table (ptr : Nat) : LuaValue
  | Function (ptr : Nat) : LuaValue
  | CFunc (f : Nat) : LuaValue
  | UserData (ptr : Nat) : LuaValue
  | TempString (s : String) : LuaValue
  deriving DecidableEq, Repr

namespace LuaValue

/-- The derived `PartialEq` of `LuaValue`: structural, with `f64 == f64`
for `Number` and pointer identity for heap references. -/
def beq : LuaValue → LuaValue → Bool
  | Nil, Nil => true
  | Number n1, Number n2 => F64.beq n1 n2
  | Boolean b1, Boolean b2 => b1 == b2
  | String p1, String p2 => p1 == p2
  | Table p1, Table p2 => p1 == p2
  | Function p1, Function p2 => p1 == p2
  | CFunc f1, CFunc f2 => f1 == f2
  | UserData p1, UserData p2 => p1 == p2
  | TempString s1, TempString s2 => s1 == s2
  | _, _ => false

/-- The `Hash` impl of `LuaValue` hashes the discriminant and then:
`n.to_bits()` for `Number`, the pointer address for heap references, the
content for `Boolean`/`TempString`.  Two values land in the same hash
bucket exactly when those hashed streams coincide; `hashEq` decides that
(the model idealizes the hasher as collision-free). -/
def hashEq : LuaValue → LuaValue → Bool
  | Nil, Nil => true
  | Number n1, Number n2 => n1.bits == n2.bits
  | Boolean b1, Boolean b2 => b1 == b2
  | String p1, String p2 => p1 == p2
  | Table p1, Table p2 => p1 == p2
  | Function p1, Function p2 => p1 == p2
  | CFunc f1, CFunc f2 => f1 == f2
  | UserData p1, UserData p2 => p1 == p2
  | TempString s1, TempString s2 => s1 == s2
  | _, _ => false

/-- A `HashMap` probe finds a stored key `k` for query `v` iff the hashes
coincide and the keys compare equal (`Eq`). -/
def probeEq (k v : LuaValue) : Bool := hashEq k v && beq k v

theorem beq_comm (x y : LuaValue) : beq x y = beq y x := by
  cases x <;> cases y <;>
    simp only [beq, F64.beq_symm, BEq.comm]

theorem hashEq_symm (x y : LuaValue) : hashEq x y = hashEq y x := by
  cases x <;> cases y <;>
    simp only [hashEq, BEq.comm]

theorem beq_transitive {x y z : LuaValue} (h1 : beq x y = true)
    (h2 : beq y z = true) : beq x z = true := by
  cases x <;> cases y <;> cases z <;> simp [beq] at h1 h2 ⊢ <;>
    first
      | exact F64.beq_trans h1 h2
      | exact h1.trans h2

theorem hashEq_trans {x y z : LuaValue} (h1 : hashEq x y = true)
    (h2 : hashEq y z = true) : hashEq x z = true := by
  cases x <;> cases y <;> cases z <;> simp [hashEq] at h1 h2 ⊢ <;>
    exact h1.trans h2

theorem probeEq_symm (x y : LuaValue) : probeEq x y = probeEq y x := by
  simp [probeEq, beq_comm, hashEq_symm]

theorem probeEq_trans {x y z : LuaValue} (h1 : probeEq x y = true)
    (h2 : probeEq y z = true) : probeEq x z = true := by
  simp only [probeEq, Bool.and_eq_true] at h1 h2 ⊢
  exact ⟨hashEq_trans h1.1 h2.1, beq_transitive h1.2 h2.2⟩

end LuaValue

/-! ## Constant pool (`src/backend/translator/emitter.rs`)

The emitter's `constants: Vec<LuaValue>` together with
`const_map: HashMap<LuaValue, u16>`; `mapGet` is the `HashMap::get`
semantics for the `Hash`/`Eq` impls above. -/

/-- `HashMap<LuaValue, u16>::get`: the stored entry whose key probes equal
to `v` (hash bucket match plus `Eq`), if any. -/
def mapGet (m : List (LuaValue × Nat)) (v : LuaValue) : Option (LuaValue × Nat) :=
  m.find? (fun e => LuaValue.probeEq e.1 v)

structure EmitterPool where
  constants : List LuaValue
  const_map : List (LuaValue × Nat)
  deriving Repr

def EmitterPool.empty : EmitterPool := ⟨[], []⟩

/-- `BytecodeEmitter::add_constant` (emitter.rs:237-245): return the
existing index on a map hit, otherwise append to the pool and record the
new index. -/
def add_constant (st : EmitterPool) (val : LuaValue) : Nat × EmitterPool :=
  match mapGet st.const_map val with
  | some e => (e.2, st)
  | none =>
      let idx := st.constants.length
      (idx, ⟨st.constants ++ [val], st.const_map ++ [(val, idx)]⟩)

/-- Folding `add_constant` over a list of requests, from a given pool. -/
def addConstants (st : EmitterPool) : List LuaValue → EmitterPool
  | [] => st
  | v :: vs => addConstants (add_constant st v).2 vs

/-- The well-formedness the emitter maintains: map keys are pairwise in
distinct hash-equivalence classes, every map entry points back into the
pool, and every pool slot has a map entry. -/
def poolInv (st : EmitterPool) : Prop :=
  List.Pairwise (fun e1 e2 => LuaValue.probeEq e1.1 e2.1 = false) st.const_map ∧
  (∀ e ∈ st.const_map, st.constants[e.2]? = some e.1) ∧
  (∀ i v', st.constants[i]? = some v' → (v', i) ∈ st.const_map)

theorem poolInv_empty : poolInv EmitterPool.empty := by
  refine ⟨List.Pairwise.nil, ?_, ?_⟩ <;> simp [EmitterPool.empty]

theorem mapGet_eq_none {m : List (LuaValue × Nat)} {v : LuaValue}
    (h : mapGet m v = none) : ∀ e ∈ m, LuaValue.probeEq e.1 v = false := by
  simp only [mapGet] at h
  intro e he
  have := List.find?_eq_none.mp h e he
  simpa using this

theorem mapGet_eq_some {m : List (LuaValue × Nat)} {v : LuaValue}
    {e : LuaValue × Nat} (h : mapGet m v = some e) :
    e ∈ m ∧ LuaValue.probeEq e.1 v = true := by
  simp only [mapGet] at h
  have hp := List.find?_some h
  exact ⟨List.mem_of_find?_eq_some h, by simpa using hp⟩

theorem find?_append_of_none {α : Type} {p : α → Bool} {l1 l2 : List α}
    (h : l1.find? p = none) : (l1 ++ l2).find? p = l2.find? p := by
  induction l1 with
  | nil => simp
  | cons a l ih =>
      rw [List.find?_cons] at h
      cases hp : p a
      · rw [List.cons_append, List.find?_cons, hp]
        exact ih (by simpa [hp] using h)
      · simp [hp] at h

theorem poolInv_add_constant {st : EmitterPool} (h : poolInv st)
    (v : LuaValue) : poolInv (add_constant st v).2 := by
  obtain ⟨hpw, hback, hfull⟩ := h
  unfold add_constant
  cases hm : mapGet st.const_map v with
  | some e => exact ⟨hpw, hback, hfull⟩
  | none =>
      have hmiss := mapGet_eq_none hm
      refine ⟨?_, ?_, ?_⟩
      · rw [List.pairwise_append]
        refine ⟨hpw, List.pairwise_singleton _ _, ?_⟩
        intro e he e' he'
        rw [List.mem_singleton] at he'
        subst he'
        exact hmiss e he
      · intro e he
        rw [List.mem_append, List.mem_singleton] at he
        rcases he with he | he
        · have hb := hback e he
          have hlt : e.2 < st.constants.length := by
            by_contra hge
            rw [List.getElem?_eq_none (by omega)] at hb
            cases hb
          rw [List.getElem?_append_left hlt]
          exact hb
        · subst he
          simp
      · intro i v' hv'
        by_cases hcase : i < st.constants.length
        · rw [List.getElem?_append_left hcase] at hv'
          rw [List.mem_append]
          exact Or.inl (hfull i v' hv')
        · rw [List.mem_append, List.mem_singleton]
          right
          by_cases hieq : i = st.constants.length
          · subst hieq
            rw [List.getElem?_concat_length] at hv'
            cases hv'
            rfl
          · exfalso
            have : (st.constants ++ [v])[i]? = none :=
              List.getElem?_eq_none (by simp; omega)
            rw [this] at hv'
            cases hv'

theorem poolInv_addConstants (vs : List LuaValue) :
    ∀ st : EmitterPool, poolInv st → poolInv (addConstants st vs) := by
  induction vs with
  | nil => intro st h; exact h
  | cons v vs ih =>
      intro st h
      exact ih _ (poolInv_add_constant h v)

/-- For a pool satisfying the invariant, calling `add_constant` with two
probe-equal values (same hashed representation and `Eq`) yields the same
index both times. -/
theorem add_constant_same_index {st : EmitterPool} (h : poolInv st)
    {v1 v2 : LuaValue} (h12 : LuaValue.probeEq v1 v2 = true) :
    (add_constant (add_constant st v1).2 v2).1 = (add_constant st v1).1 := by
  obtain ⟨hpw, hback, hfull⟩ := h
  unfold add_constant
  cases hm : mapGet st.const_map v1 with
  | some e =>
      obtain ⟨hmem, hprobe⟩ := mapGet_eq_some hm
      simp only
      cases hm2 : mapGet st.const_map v2 with
      | none =>
          exact absurd (mapGet_eq_none hm2 e hmem)
            (by simp [LuaValue.probeEq_trans hprobe h12])
      | some e2 =>
          obtain ⟨hmem2, hprobe2⟩ := mapGet_eq_some hm2
          simp only
          by_cases heq : e2 = e
          · rw [heq]
          · exfalso
            have hsymm : Symmetric
                (fun e1 e2 : LuaValue × Nat =>
                  LuaValue.probeEq e1.1 e2.1 = false) := by
              intro a b hab
              rw [LuaValue.probeEq_symm]
              exact hab
            have := hpw.forall hsymm hmem2 hmem heq
            have htrue : LuaValue.probeEq e2.1 e.1 = true :=
              LuaValue.probeEq_trans hprobe2
                (LuaValue.probeEq_trans ((LuaValue.probeEq_symm v1 v2) ▸ h12)
                  ((LuaValue.probeEq_symm e.1 v1) ▸ hprobe))
            rw [htrue] at this
            cases this
  | none =>
      have hmiss := mapGet_eq_none hm
      simp only
      have hnone2 : mapGet st.const_map v2 = none := by
        rw [mapGet, List.find?_eq_none]
        intro e he
        have h1 := hmiss e he
        intro hcon
        have : LuaValue.probeEq e.1 v1 = true :=
          LuaValue.probeEq_trans (by simpa using hcon)
            ((LuaValue.probeEq_symm v1 v2) ▸ h12)
        rw [h1] at this
        cases this
      have : mapGet (st.const_map ++ [(v1, st.constants.length)]) v2 =
          some (v1, st.constants.length) := by
        rw [mapGet]
        rw [mapGet] at hnone2
        rw [find?_append_of_none hnone2]
        simp [h12]
      rw [this]

/-- C4, counterexample: `add_constant` deduplicates through a
`HashMap<LuaValue, u16>` whose `Hash` (number hashed by `to_bits`) is
inconsistent with its `Eq` (`f64 ==`).  `0.0` and `-0.0` are numerically
equal, yet hash to different buckets, so the second call misses the map:
the two calls return indices 0 and 1 and the pool ends up holding two
entries with numerically equal content. -/
theorem C4_counterexample_zero_negZero :
    LuaValue.beq (.Number F64.zero) (.Number F64.negZero) = true ∧
    (add_constant EmitterPool.empty (.Number F64.zero)).1 = 0 ∧
    (add_constant (add_constant EmitterPool.empty (.Number F64.zero)).2
        (.Number F64.negZero)).1 = 1 ∧
    (add_constant (add_constant EmitterPool.empty (.Number F64.zero)).2
        (.Number F64.negZero)).2.constants =
      [.Number F64.zero, .Number F64.negZero] := by
  decide

/-- C4 (amended): for every function the emitter compiles, the constant
pool contains no two entries with equal content when numbers are compared
by numeric equality AND identical bit pattern (strings by content), and
`add_constant(v)` called twice with values equal in that sense returns the
same index both times.  (Numerically equal numbers with different bit
patterns, i.e. `0.0` vs `-0.0`, get distinct entries.) -/
theorem C4_constant_pool_dedup (vs : List LuaValue) :
    (∀ (i j : Nat) (vi vj : LuaValue), i ≠ j →
        (addConstants EmitterPool.empty vs).constants[i]? = some vi →
        (addConstants EmitterPool.empty vs).constants[j]? = some vj →
        LuaValue.probeEq vi vj = false) ∧
    (∀ v1 v2, LuaValue.probeEq v1 v2 = true →
        (add_constant
            (add_constant (addConstants EmitterPool.empty vs) v1).2 v2).1 =
          (add_constant (addConstants EmitterPool.empty vs) v1).1) := by
  have hinv := poolInv_addConstants vs EmitterPool.empty poolInv_empty
  obtain ⟨hpw, hback, hfull⟩ := hinv
  constructor
  · intro i j vi vj hij hgi hgj
    have hmi := hfull i vi hgi
    have hmj := hfull j vj hgj
    have hneq : (vi, i) ≠ (vj, j) := by
      intro hc
      cases hc
      exact hij rfl
    have hsymm : Symmetric
        (fun e1 e2 : LuaValue × Nat => LuaValue.probeEq e1.1 e2.1 = false) := by
      intro a b hab
      rw [LuaValue.probeEq_symm]
      exact hab
    exact hpw.forall hsymm hmi hmj hneq
  · intro v1 v2 h12
    exact add_constant_same_index ⟨hpw, hback, hfull⟩ h12

/-- Witness for C4: instantiating the dedup theorem on a concrete pool and
concrete probe-equal values. -/
theorem C4_constant_pool_dedup_witness :
    LuaValue.probeEq (.TempString "x") (.TempString "x") = true ∧
    (add_constant
        (add_constant (addConstants EmitterPool.empty [.Number F64.zero])
          (.TempString "x")).2 (.TempString "x")).1 =
      (add_constant (addConstants EmitterPool.empty [.Number F64.zero])
        (.TempString "x")).1 :=
  ⟨by decide,
    (C4_constant_pool_dedup [.Number F64.zero]).2 (.TempString "x")
      (.TempString "x") (by decide)⟩

/-! ## Association-list model of `HashMap` entry access

`alGet`/`alInsert` model `HashMap::get` and in-place `insert`/`get_mut`
for the scanner's maps, whose keys are `(String, VarKind)` pairs with a
`Hash`/`Eq` that is consistent (derived on both), so lookups behave as
plain key equality. -/

def alGet {K V : Type} [DecidableEq K] (l : List (K × V)) (k : K) : Option V :=
  (l.find? (fun e => decide (e.1 = k))).map (fun e => e.2)

def alInsert {K V : Type} [DecidableEq K] : List (K × V) → K → V → List (K × V)
  | [], k, v => [(k, v)]
  | e :: rest, k, v =>
      if e.1 = k then (k, v) :: rest else e :: alInsert rest k v

/-! ## IR data model (`src/frontend/ir/mod.rs`) -/

inductive IRUpValType where
  | LocalVar (slot : Nat) : IRUpValType
  | UpVal (slot : Nat) : IRUpValType
  deriving DecidableEq, Repr

structure IRUpVal where
  slot : Nat
  ty : IRUpValType
  deriving DecidableEq, Repr

inductive IRBinOp where
  | Add | Sub | Mul | Div | Pow | Concat | And | Or
  | Eq | Neq | Lt | Gt | Leq | Geq
  deriving DecidableEq, Repr

inductive IRUnOp where
  | Neg | Not
  deriving DecidableEq, Repr

inductive IROperand where
  | Reg (n : Nat) : IROperand
  | Slot (n : Nat) : IROperand
  | UpVal (n : Nat) : IROperand
  | Proto (name : String) : IROperand
  | ImmFloat (f : F64) : IROperand
  | ImmBool (b : Bool) : IROperand
  | ImmStr (s : String) : IROperand
  | Nil : IROperand
  | Unit : IROperand
  deriving DecidableEq, Repr

inductive IRInstruction where
  | LoadImm (dest : Nat) (value : IROperand) : IRInstruction
  | Binary (dest : Nat) (src1 src2 : IROperand) (operator : IRBinOp) : IRInstruction
  | Unary (dest : Nat) (operator : IRUnOp) (src : IROperand) : IRInstruction
  | LoadLocal (dest : Nat) (src : IROperand) : IRInstruction
  | StoreLocal (dest : Nat) (dst src : IROperand) : IRInstruction
  | LoadGlobal (dest : Nat) (name : IROperand) : IRInstruction
  | StoreGlobal (dest : Nat) (name src : IROperand) : IRInstruction
  | LoadUpVal (dest : Nat) (src : IROperand) : IRInstruction
  | Drop (src : IROperand) : IRInstruction
  | Call (dest : Nat) (callee : IROperand) (args : List IROperand) : IRInstruction
  | IndexOf (dest : Nat) (collection index : IROperand) : IRInstruction
  | SetIndex (dest : Nat) (collection index value : IROperand) : IRInstruction
  | MemberOf (dest : Nat) (collection member : IROperand) : IRInstruction
  | SetMember (dest : Nat) (collection member value : IROperand) : IRInstruction
  | NewTable (dest : Nat) (size_array size_hash : IROperand) : IRInstruction
  | SetTable (dest : Nat) (table key value : IROperand) : IRInstruction
  | GetTable (dest : Nat) (table key : IROperand) : IRInstruction
  | FnProto (dest : Nat) (func_proto : IROperand) : IRInstruction
  deriving DecidableEq, Repr

inductive IRTerminator where
  | Return (ops : List IROperand) : IRTerminator
  | Jump (target : Nat) : IRTerminator
  | Branch (cond : IROperand) (br_true br_false : Nat) : IRTerminator
  | FallThrough : IRTerminator
  deriving DecidableEq, Repr

structure IRBasicBlock where
  id : Nat
  instructions : List IRInstruction
  terminator : IRTerminator
  deriving DecidableEq, Repr

structure IRFunction where
  name : String
  params : List String
  basic_blocks : List IRBasicBlock
  local_variables : List (String × Nat)
  upvalues : List (String × IRUpVal)
  sub_functions : List String
  deriving DecidableEq, Repr

/-! ## Lifetime scanner (`src/backend/translator/scanner.rs`) -/

inductive VarKind where
  | Reg (n : Nat) : VarKind
  | Slot (n : Nat) : VarKind
  deriving DecidableEq, Repr

structure Lifetime where
  start : Nat
  endIdx : Nat    -- `end` in the source; `end` is a Lean keyword
  is_fixed : Bool
  inferred_type : Option String
  deriving DecidableEq, Repr

/-- The `Scanner` struct.  (`child_protos` is declared in the source but
never written by any scanner method, so it is not carried here.) -/
structure Scanner where
  lifetimes : List ((String × VarKind) × Lifetime)
  global_vars : List String
  reg_map : List ((String × VarKind) × Nat)
  func_stack_info : List (String × (Nat × Nat))
  instr_count : Nat
  deriving DecidableEq, Repr

def Scanner.new : Scanner := ⟨[], [], [], [], 0⟩

/-- `Scanner::record_def` (scanner.rs:260-272). -/
def record_def (s : Scanner) (func_name : String) (var : VarKind)
    (is_fixed : Bool) (type_hint : Option String) : Scanner :=
  let key := (func_name, var)
  let entry := (alGet s.lifetimes key).getD
    ⟨s.instr_count, s.instr_count, is_fixed, type_hint⟩
  let entry := { entry with start := min entry.start s.instr_count }
  let entry := if entry.inferred_type.isNone && type_hint.isSome then
      { entry with inferred_type := type_hint }
    else entry
  { s with lifetimes := alInsert s.lifetimes key entry }

/-- `Scanner::record_use` (scanner.rs:274-286). -/
def record_use (s : Scanner) (func_name : String) (operand : IROperand) : Scanner :=
  let var : Option VarKind := match operand with
    | .Reg id => some (VarKind.Reg id)
    | .Slot id => some (VarKind.Slot id)
    | _ => none
  match var with
  | none => s
  | some v =>
      let key := (func_name, v)
      match alGet s.lifetimes key with
      | none => s
      | some lt =>
          let lt2 := { lt with endIdx := max lt.endIdx s.instr_count }
          { s with lifetimes := alInsert s.lifetimes key lt2 }

/-- The `lt.end = self.instr_count + 1` extension the `Call` arm applies
to each `Reg` argument and to the callee (scanner.rs:186-198). -/
def extend_past_call (s : Scanner) (func_name : String) (op : IROperand) : Scanner :=
  match op with
  | .Reg id =>
      let key := (func_name, VarKind.Reg id)
      match alGet s.lifetimes key with
      | none => s
      | some lt =>
          let lt2 := { lt with endIdx := s.instr_count + 1 }
          { s with lifetimes := alInsert s.lifetimes key lt2 }
  | _ => s

/-- The `StoreLocal` arm's propagation of the source temporary's inferred
type into the destination slot (scanner.rs:161-167). -/
def slot_type_update (s : Scanner) (func_name : String) (dst : IROperand)
    (src_type : Option String) : Scanner :=
  match dst, src_type with
  | .Slot slot_id, some ty =>
      match alGet s.lifetimes (func_name, VarKind.Slot slot_id) with
      | some lt =>
          let lt2 := { lt with inferred_type := some ty }
          { s with lifetimes :=
              alInsert s.lifetimes (func_name, VarKind.Slot slot_id) lt2 }
      | none => s
  | _, _ => s

/-- `Scanner::process_instr` (scanner.rs:138-258).  The source's `match`
has no arm for `LoadUpVal` (the file predates that variant); its arm is
modelled from the spec: "each def extends its lifetime's start … and each
use extends end" (§4.2), i.e. a def of `dest` and a use of `src`. -/
def process_instr (s : Scanner) (func_name : String) : IRInstruction → Scanner
  | .LoadImm dest value =>
      let type_str := match value with
        | .ImmFloat _ => "Float"
        | .ImmStr _ => "String"
        | .ImmBool _ => "Boolean"
        | .Nil => "Nil"
        | _ => "Dynamic"
      record_def s func_name (.Reg dest) false (some type_str)
  | .LoadLocal dest src =>
      record_use (record_def s func_name (.Reg dest) false none) func_name src
  | .StoreLocal dest dst src =>
      let src_type := match src with
        | .Reg id => (alGet s.lifetimes (func_name, VarKind.Reg id)).bind
            (fun lt => lt.inferred_type)
        | _ => none
      let s1 := record_def s func_name (.Reg dest) false none
      let s2 := slot_type_update s1 func_name dst src_type
      record_use (record_use s2 func_name dst) func_name src
  | .Binary dest src1 src2 _ =>
      record_use (record_use (record_def s func_name (.Reg dest) false none)
        func_name src1) func_name src2
  | .Unary dest _ src =>
      record_use (record_def s func_name (.Reg dest) false none) func_name src
  | .Call dest callee args =>
      let s1 := record_def s func_name (.Reg dest) false none
      let s2 := record_use s1 func_name callee
      let s3 := args.foldl
        (fun acc arg => extend_past_call (record_use acc func_name arg) func_name arg) s2
      extend_past_call s3 func_name callee
  | .LoadGlobal dest name =>
      let s1 := record_use (record_def s func_name (.Reg dest) false none) func_name name
      match name with
      | .ImmStr str => { s1 with global_vars := s1.global_vars ++ [str] }
      | _ => s1
  | .StoreGlobal dest name src =>
      record_use (record_use (record_def s func_name (.Reg dest) false none)
        func_name name) func_name src
  | .Drop src => record_use s func_name src
  | .NewTable dest size_array size_hash =>
      record_use (record_use (record_def s func_name (.Reg dest) false (some "Table"))
        func_name size_array) func_name size_hash
  | .SetTable dest table key value =>
      record_use (record_use (record_use
        (record_def s func_name (.Reg dest) false none)
        func_name table) func_name key) func_name value
  | .GetTable dest table key =>
      record_use (record_use (record_def s func_name (.Reg dest) false none)
        func_name table) func_name key
  | .IndexOf dest collection index =>
      record_use (record_use (record_def s func_name (.Reg dest) false none)
        func_name collection) func_name index
  | .SetIndex dest collection index value =>
      record_use (record_use (record_use
        (record_def s func_name (.Reg dest) false none)
        func_name collection) func_name index) func_name value
  | .MemberOf dest collection member =>
      record_use (record_use (record_def s func_name (.Reg dest) false none)
        func_name collection) func_name member
  | .SetMember dest collection member value =>
      record_use (record_use (record_use
        (record_def s func_name (.Reg dest) false none)
        func_name collection) func_name member) func_name value
  | .FnProto dest func_proto =>
      record_use (record_def s func_name (.Reg dest) false (some "Function"))
        func_name func_proto
  | .LoadUpVal dest src =>
      -- Modelled from the spec: arm absent from scanner.rs (see doc above)
      record_use (record_def s func_name (.Reg dest) false none) func_name src

/-- `Scanner::process_terminator` (scanner.rs:288-294). -/
def process_terminator (s : Scanner) (func_name : String) : IRTerminator → Scanner
  | .Return ops => ops.foldl (fun acc op => record_use acc func_name op) s
  | .Branch cond _ _ => record_use s func_name cond
  | _ => s

/-- The linear schedule the scanner walks: each block's instructions in
order, then its terminator (terminators are numbered like instructions). -/
inductive ScanItem where
  | instr (i : IRInstruction) : ScanItem
  | term (t : IRTerminator) : ScanItem
  deriving DecidableEq, Repr

def scanItems (func : IRFunction) : List ScanItem :=
  (func.basic_blocks.map
    (fun blk => blk.instructions.map ScanItem.instr ++ [ScanItem.term blk.terminator])).flatten

/-- One step of `scan_lifetimes`: `instr_count += 1` then process. -/
def scanStep (func_name : String) (s : Scanner) : ScanItem → Scanner
  | .instr i => process_instr { s with instr_count := s.instr_count + 1 } func_name i
  | .term t => process_terminator { s with instr_count := s.instr_count + 1 } func_name t

/-- `Scanner::scan_lifetimes` (scanner.rs:60-73): record every local slot
as a fixed def at the current count, then walk the schedule. -/
def scan_lifetimes (s : Scanner) (func : IRFunction) : Scanner :=
  let s0 := func.local_variables.foldl
    (fun acc kv => record_def acc func.name (.Slot kv.2) true none) s
  (scanItems func).foldl (scanStep func.name) s0

/-! ### Def/use view of the scan

`itemDefs`/`itemUses` restate, per instruction, which variables the
corresponding `process_instr` arm passes to `record_def` and
`record_use`; the agreement with `process_instr` is proved below via the
primitive-operation decomposition. -/

def operandVar : IROperand → Option VarKind
  | .Reg id => some (VarKind.Reg id)
  | .Slot id => some (VarKind.Slot id)
  | _ => none

def insDefs : IRInstruction → List VarKind
  | .Drop _ => []
  | .LoadImm dest _ => [.Reg dest]
  | .Binary dest _ _ _ => [.Reg dest]
  | .Unary dest _ _ => [.Reg dest]
  | .LoadLocal dest _ => [.Reg dest]
  | .StoreLocal dest _ _ => [.Reg dest]
  | .LoadGlobal dest _ => [.Reg dest]
  | .StoreGlobal dest _ _ => [.Reg dest]
  | .LoadUpVal dest _ => [.Reg dest]
  | .Call dest _ _ => [.Reg dest]
  | .IndexOf dest _ _ => [.Reg dest]
  | .SetIndex dest _ _ _ => [.Reg dest]
  | .MemberOf dest _ _ => [.Reg dest]
  | .SetMember dest _ _ _ => [.Reg dest]
  | .NewTable dest _ _ => [.Reg dest]
  | .SetTable dest _ _ _ => [.Reg dest]
  | .GetTable dest _ _ => [.Reg dest]
  | .FnProto dest _ => [.Reg dest]

def insUses : IRInstruction → List VarKind
  | .LoadImm _ _ => []
  | .Binary _ src1 src2 _ => (([src1, src2]).filterMap operandVar)
  | .Unary _ _ src => ([src]).filterMap operandVar
  | .LoadLocal _ src => ([src]).filterMap operandVar
  | .StoreLocal _ dst src => ([dst, src]).filterMap operandVar
  | .LoadGlobal _ name => ([name]).filterMap operandVar
  | .StoreGlobal _ name src => ([name, src]).filterMap operandVar
  | .LoadUpVal _ src => ([src]).filterMap operandVar
  | .Drop src => ([src]).filterMap operandVar
  | .Call _ callee args => (callee :: args).filterMap operandVar
  | .IndexOf _ collection index => ([collection, index]).filterMap operandVar
  | .SetIndex _ collection index value =>
      ([collection, index, value]).filterMap operandVar
  | .MemberOf _ collection member => ([collection, member]).filterMap operandVar
  | .SetMember _ collection member value =>
      ([collection, member, value]).filterMap operandVar
  | .NewTable _ size_array size_hash =>
      ([size_array, size_hash]).filterMap operandVar
  | .SetTable _ table key value => ([table, key, value]).filterMap operandVar
  | .GetTable _ table key => ([table, key]).filterMap operandVar
  | .FnProto _ func_proto => ([func_proto]).filterMap operandVar

def termUses : IRTerminator → List VarKind
  | .Return ops => ops.filterMap operandVar
  | .Branch cond _ _ => ([cond]).filterMap operandVar
  | _ => []

def itemDefs : ScanItem → List VarKind
  | .instr i => insDefs i
  | .term _ => []

def itemUses : ScanItem → List VarKind
  | .instr i => insUses i
  | .term t => termUses t

/-! ### Primitive-operation decomposition of the scan

Every `process_instr` arm is a sequence of four primitive operations on
the lifetime map; the lemma `process_instr_lifetimes` below proves the
decomposition exact, so that scan-wide invariants can be established by
induction on the primitive list. -/

inductive ScanPrim where
  | defOp (var : VarKind) (is_fixed : Bool) (hint : Option String) : ScanPrim
  | useOp (op : IROperand) : ScanPrim
  | extendOp (op : IROperand) : ScanPrim
  | typeOp (dst : IROperand) (ty : Option String) : ScanPrim
  deriving DecidableEq, Repr

def applyPrim (fn : String) (s : Scanner) : ScanPrim → Scanner
  | .defOp v f h => record_def s fn v f h
  | .useOp op => record_use s fn op
  | .extendOp op => extend_past_call s fn op
  | .typeOp dst ty => slot_type_update s fn dst ty

def applyOps (fn : String) (s : Scanner) (ops : List ScanPrim) : Scanner :=
  ops.foldl (applyPrim fn) s

def primsOf (s : Scanner) (fn : String) : IRInstruction → List ScanPrim
  | .LoadImm dest value =>
      let type_str := match value with
        | .ImmFloat _ => "Float"
        | .ImmStr _ => "String"
        | .ImmBool _ => "Boolean"
        | .Nil => "Nil"
        | _ => "Dynamic"
      [.defOp (.Reg dest) false (some type_str)]
  | .LoadLocal dest src => [.defOp (.Reg dest) false none, .useOp src]
  | .StoreLocal dest dst src =>
      let src_type := match src with
        | .Reg id => (alGet s.lifetimes (fn, VarKind.Reg id)).bind
            (fun lt => lt.inferred_type)
        | _ => none
      [.defOp (.Reg dest) false none, .typeOp dst src_type, .useOp dst, .useOp src]
  | .Binary dest src1 src2 _ =>
      [.defOp (.Reg dest) false none, .useOp src1, .useOp src2]
  | .Unary dest _ src => [.defOp (.Reg dest) false none, .useOp src]
  | .Call dest callee args =>
      [.defOp (.Reg dest) false none, .useOp callee] ++
        (args.map (fun a => [ScanPrim.useOp a, ScanPrim.extendOp a])).flatten ++
        [.extendOp callee]
  | .LoadGlobal dest name => [.defOp (.Reg dest) false none, .useOp name]
  | .StoreGlobal dest name src =>
      [.defOp (.Reg dest) false none, .useOp name, .useOp src]
  | .Drop src => [.useOp src]
  | .NewTable dest size_array size_hash =>
      [.defOp (.Reg dest) false (some "Table"), .useOp size_array, .useOp size_hash]
  | .SetTable dest table key value =>
      [.defOp (.Reg dest) false none, .useOp table, .useOp key, .useOp value]
  | .GetTable dest table key =>
      [.defOp (.Reg dest) false none, .useOp table, .useOp key]
  | .IndexOf dest collection index =>
      [.defOp (.Reg dest) false none, .useOp collection, .useOp index]
  | .SetIndex dest collection index value =>
      [.defOp (.Reg dest) false none, .useOp collection, .useOp index, .useOp value]
  | .MemberOf dest collection member =>
      [.defOp (.Reg dest) false none, .useOp collection, .useOp member]
  | .SetMember dest collection member value =>
      [.defOp (.Reg dest) false none, .useOp collection, .useOp member, .useOp value]
  | .FnProto dest func_proto =>
      [.defOp (.Reg dest) false (some "Function"), .useOp func_proto]
  | .LoadUpVal dest src => [.defOp (.Reg dest) false none, .useOp src]

def termPrims : IRTerminator → List ScanPrim
  | .Return ops => ops.map ScanPrim.useOp
  | .Branch cond _ _ => [.useOp cond]
  | _ => []

theorem applyOps_append (fn : String) (s : Scanner) (l1 l2 : List ScanPrim) :
    applyOps fn s (l1 ++ l2) = applyOps fn (applyOps fn s l1) l2 :=
  List.foldl_append ..

theorem applyPrim_instr_count (fn : String) (s : Scanner) (p : ScanPrim) :
    (applyPrim fn s p).instr_count = s.instr_count := by
  cases p with
  | defOp v f h => rfl
  | useOp op =>
      simp only [applyPrim, record_use]
      split <;> try rfl
      split <;> rfl
  | extendOp op =>
      simp only [applyPrim, extend_past_call]
      split <;> try rfl
      split <;> rfl
  | typeOp dst ty =>
      simp only [applyPrim, slot_type_update]
      split <;> try rfl
      split <;> rfl

theorem applyOps_instr_count (fn : String) (ops : List ScanPrim) :
    ∀ s : Scanner, (applyOps fn s ops).instr_count = s.instr_count := by
  induction ops with
  | nil => intro s; rfl
  | cons p ops ih =>
      intro s
      rw [applyOps, List.foldl_cons, ← applyOps]
      rw [ih, applyPrim_instr_count]

/-- Every `process_instr` arm acts on the lifetime map exactly as its
primitive decomposition. -/
theorem process_instr_lifetimes (s : Scanner) (fn : String) (i : IRInstruction) :
    (process_instr s fn i).lifetimes =
      (applyOps fn s (primsOf s fn i)).lifetimes := by
  cases i with
  | Call dest callee args =>
      simp only [process_instr, primsOf, applyOps_append]
      have hargs : ∀ (s2 : Scanner),
          args.foldl (fun acc arg =>
            extend_past_call (record_use acc fn arg) fn arg) s2 =
            applyOps fn s2
              ((args.map (fun a => [ScanPrim.useOp a, ScanPrim.extendOp a])).flatten) := by
        induction args with
        | nil => intro s2; rfl
        | cons a as iha =>
            intro s2
            simp only [List.foldl_cons, List.map_cons, List.flatten_cons]
            rw [iha, applyOps_append]
            rfl
      rw [hargs]
      rfl
  | LoadGlobal dest name =>
      simp only [process_instr, primsOf]
      cases name <;> rfl
  | _ => rfl

theorem process_terminator_eq (s : Scanner) (fn : String) (t : IRTerminator) :
    process_terminator s fn t = applyOps fn s (termPrims t) := by
  cases t with
  | Return ops =>
      simp only [process_terminator, termPrims]
      induction ops generalizing s with
      | nil => rfl
      | cons op ops ih =>
          simp only [List.foldl_cons, List.map_cons]
          rw [ih]
          rfl
  | Branch cond a b => rfl
  | Jump target => rfl
  | FallThrough => rfl

/-! ### Effect of the primitives on the lifetime map -/

theorem alGet_alInsert_self {K V : Type} [DecidableEq K]
    (l : List (K × V)) (k : K) (v : V) : alGet (alInsert l k v) k = some v := by
  induction l with
  | nil => simp [alGet, alInsert, List.find?]
  | cons e rest ih =>
      by_cases h : e.1 = k
      · simp [alGet, alInsert, h, List.find?]
      · simp only [alInsert, if_neg h]
        simpa [alGet, List.find?, h] using ih

theorem alGet_alInsert_ne {K V : Type} [DecidableEq K]
    (l : List (K × V)) (k k' : K) (v : V) (h : k' ≠ k) :
    alGet (alInsert l k v) k' = alGet l k' := by
  induction l with
  | nil => simp [alGet, alInsert, List.find?, Ne.symm h]
  | cons e rest ih =>
      by_cases he : e.1 = k
      · subst he
        simp [alGet, alInsert, List.find?, Ne.symm h]
      · simp only [alInsert, if_neg he]
        by_cases he' : e.1 = k'
        · simp [alGet, List.find?, he']
        · simpa [alGet, List.find?, he'] using ih

/-- How `record_def` rewrites the existing (or missing) entry. -/
def defMassage (c : Nat) (f : Bool) (h : Option String) :
    Option Lifetime → Lifetime
  | none => ⟨c, c, f, h⟩
  | some lt =>
      { lt with
          start := min lt.start c
          inferred_type :=
            if lt.inferred_type.isNone && h.isSome then h else lt.inferred_type }

theorem record_def_alGet (s : Scanner) (fn : String) (v : VarKind)
    (f : Bool) (h : Option String) (key : String × VarKind) :
    alGet (record_def s fn v f h).lifetimes key =
      if key = (fn, v) then
        some (defMassage s.instr_count f h (alGet s.lifetimes (fn, v)))
      else alGet s.lifetimes key := by
  by_cases hk : key = (fn, v)
  · subst hk
    simp only [record_def, if_pos rfl]
    cases hg : alGet s.lifetimes (fn, v) with
    | none => simp [hg, alGet_alInsert_self, defMassage]
    | some lt =>
        simp [hg, alGet_alInsert_self, defMassage]
        split <;> rfl
  · simp only [record_def, if_neg hk]
    cases hg : alGet s.lifetimes (fn, v) <;>
      simp [hg, alGet_alInsert_ne _ _ _ _ hk]

theorem record_use_alGet (s : Scanner) (fn : String) (op : IROperand)
    (key : String × VarKind) :
    alGet (record_use s fn op).lifetimes key =
      match operandVar op with
      | some v =>
          if key = (fn, v) then
            (alGet s.lifetimes (fn, v)).map
              (fun lt => { lt with endIdx := max lt.endIdx s.instr_count })
          else alGet s.lifetimes key
      | none => alGet s.lifetimes key := by
  cases op <;> simp only [record_use, operandVar] <;> try rfl
  all_goals
    rename_i id
    cases hg : alGet s.lifetimes (fn, _) with
    | none => simp [hg]; split <;> simp_all
    | some lt =>
        simp only [hg, Option.map_some]
        split
        · rename_i hk
          subst hk
          simp [alGet_alInsert_self]
        · rename_i hk
          simp [alGet_alInsert_ne _ _ _ _ hk]

theorem extend_past_call_alGet (s : Scanner) (fn : String) (op : IROperand)
    (key : String × VarKind) :
    alGet (extend_past_call s fn op).lifetimes key =
      match op with
      | .Reg id =>
          if key = (fn, VarKind.Reg id) then
            (alGet s.lifetimes (fn, VarKind.Reg id)).map
              (fun lt => { lt with endIdx := s.instr_count + 1 })
          else alGet s.lifetimes key
      | _ => alGet s.lifetimes key := by
  cases op <;> simp only [extend_past_call] <;> try rfl
  rename_i id
  cases hg : alGet s.lifetimes (fn, VarKind.Reg id) with
  | none => simp [hg]; split <;> simp_all
  | some lt =>
      simp only [hg, Option.map_some]
      split
      · rename_i hk
        subst hk
        simp [alGet_alInsert_self]
      · rename_i hk
        simp [alGet_alInsert_ne _ _ _ _ hk]

theorem slot_type_update_alGet (s : Scanner) (fn : String) (dst : IROperand)
    (ty : Option String) (key : String × VarKind) :
    alGet (slot_type_update s fn dst ty).lifetimes key =
      match dst, ty with
      | .Slot id, some t =>
          if key = (fn, VarKind.Slot id) then
            (alGet s.lifetimes (fn, VarKind.Slot id)).map
              (fun lt => { lt with inferred_type := some t })
          else alGet s.lifetimes key
      | _, _ => alGet s.lifetimes key := by
  cases dst <;> cases ty <;> simp only [slot_type_update] <;> try rfl
  rename_i id t
  cases hg : alGet s.lifetimes (fn, VarKind.Slot id) with
  | none => simp [hg]; split <;> simp_all
  | some lt =>
      simp only [hg, Option.map_some]
      split
      · rename_i hk
        subst hk
        simp [alGet_alInsert_self]
      · rename_i hk
        simp [alGet_alInsert_ne _ _ _ _ hk]

theorem record_def_count (s : Scanner) (fn : String) (v : VarKind)
    (f : Bool) (h : Option String) :
    (record_def s fn v f h).instr_count = s.instr_count := rfl

theorem record_use_count (s : Scanner) (fn : String) (op : IROperand) :
    (record_use s fn op).instr_count = s.instr_count := by
  simp only [record_use]
  split <;> try rfl
  split <;> rfl

theorem extend_past_call_count (s : Scanner) (fn : String) (op : IROperand) :
    (extend_past_call s fn op).instr_count = s.instr_count := by
  simp only [extend_past_call]
  split <;> try rfl
  split <;> rfl

theorem slot_type_update_count (s : Scanner) (fn : String) (dst : IROperand)
    (ty : Option String) :
    (slot_type_update s fn dst ty).instr_count = s.instr_count := by
  simp only [slot_type_update]
  split <;> try rfl
  split <;> rfl

theorem process_instr_count (s : Scanner) (fn : String) (i : IRInstruction) :
    (process_instr s fn i).instr_count = s.instr_count := by
  cases i with
  | Call dest callee args =>
      simp only [process_instr]
      rw [extend_past_call_count]
      have haux : ∀ s2 : Scanner,
          (args.foldl (fun acc arg =>
            extend_past_call (record_use acc fn arg) fn arg) s2).instr_count =
            s2.instr_count := by
        induction args with
        | nil => intro s2; rfl
        | cons a as iha =>
            intro s2
            rw [List.foldl_cons, iha, extend_past_call_count, record_use_count]
      rw [haux, record_use_count, record_def_count]
  | LoadGlobal dest name =>
      simp only [process_instr]
      cases name <;>
        simp [record_use_count, record_def_count]
  | _ =>
      simp [process_instr, record_use_count, record_def_count,
        extend_past_call_count, slot_type_update_count]

theorem process_terminator_count (s : Scanner) (fn : String) (t : IRTerminator) :
    (process_terminator s fn t).instr_count = s.instr_count := by
  cases t with
  | Return ops =>
      simp only [process_terminator]
      induction ops generalizing s with
      | nil => rfl
      | cons op ops ih => rw [List.foldl_cons, ih, record_use_count]
  | Branch cond a b => exact record_use_count ..
  | _ => rfl

theorem scanStep_count (fn : String) (s : Scanner) (it : ScanItem) :
    (scanStep fn s it).instr_count = s.instr_count + 1 := by
  cases it with
  | instr i => exact process_instr_count ..
  | term t => exact process_terminator_count ..

/-! ### The scan invariant

`GoodL fn L c`: every lifetime recorded for function `fn` satisfies
`start ≤ end` and `end ≤ c + 1` (the `+1` accounts for the `Call` arm's
`instr_count + 1` extension). -/

def GoodL (fn : String) (L : List ((String × VarKind) × Lifetime)) (c : Nat) : Prop :=
  ∀ v lt, alGet L (fn, v) = some lt → lt.start ≤ lt.endIdx ∧ lt.endIdx ≤ c + 1

theorem GoodL.weaken {fn : String} {L : List ((String × VarKind) × Lifetime)}
    {c c' : Nat} (h : GoodL fn L c) (hc : c ≤ c') : GoodL fn L c' := by
  intro v lt hg
  exact ⟨(h v lt hg).1, le_trans (h v lt hg).2 (by omega)⟩

theorem applyPrim_good {fn : String} {s : Scanner} {c : Nat} {p : ScanPrim}
    (hc : s.instr_count = c) (hg : GoodL fn s.lifetimes c) :
    GoodL fn (applyPrim fn s p).lifetimes c := by
  cases p with
  | defOp w f h =>
      intro v lt hget
      simp only [applyPrim] at hget
      rw [record_def_alGet] at hget
      by_cases hk : ((fn, v) : String × VarKind) = (fn, w)
      · have hvw : v = w := by simpa using congrArg Prod.snd hk
        subst hvw
        rw [if_pos rfl] at hget
        cases ho : alGet s.lifetimes (fn, v) with
        | none =>
            rw [ho] at hget
            cases hget
            simp only [defMassage, hc]
            omega
        | some lt0 =>
            rw [ho] at hget
            cases hget
            have h2 := hg v lt0 ho
            refine ⟨?_, ?_⟩
            · simp only [defMassage]
              omega
            · simpa [defMassage] using h2.2
      · rw [if_neg hk] at hget
        exact hg v lt hget
  | useOp op =>
      intro v lt hget
      simp only [applyPrim] at hget
      rw [record_use_alGet] at hget
      rcases hov : operandVar op with _ | w <;> rw [hov] at hget <;>
        simp only at hget
      · exact hg v lt hget
      · by_cases hk : ((fn, v) : String × VarKind) = (fn, w)
        · have hvw : v = w := by simpa using congrArg Prod.snd hk
          subst hvw
          rw [if_pos rfl] at hget
          cases ho : alGet s.lifetimes (fn, v) with
          | none => rw [ho] at hget; cases hget
          | some lt0 =>
              rw [ho] at hget
              cases hget
              have h2 := hg v lt0 ho
              simp only [hc]
              constructor
              · omega
              · omega
        · rw [if_neg hk] at hget
          exact hg v lt hget
  | extendOp op =>
      intro v lt hget
      simp only [applyPrim] at hget
      rw [extend_past_call_alGet] at hget
      cases op <;> try exact hg v lt hget
      rename_i id
      simp only at hget
      by_cases hk : ((fn, v) : String × VarKind) = (fn, VarKind.Reg id)
      · have hvw : v = VarKind.Reg id := by simpa using congrArg Prod.snd hk
        subst hvw
        rw [if_pos rfl] at hget
        cases ho : alGet s.lifetimes (fn, VarKind.Reg id) with
        | none => rw [ho] at hget; cases hget
        | some lt0 =>
            rw [ho] at hget
            cases hget
            have h2 := hg _ lt0 ho
            simp only [hc]
            constructor
            · omega
            · omega
      · rw [if_neg hk] at hget
        exact hg v lt hget
  | typeOp dst ty =>
      intro v lt hget
      simp only [applyPrim] at hget
      rw [slot_type_update_alGet] at hget
      cases dst <;> cases ty <;> try exact hg v lt hget
      rename_i id t
      simp only at hget
      by_cases hk : ((fn, v) : String × VarKind) = (fn, VarKind.Slot id)
      · have hvw : v = VarKind.Slot id := by simpa using congrArg Prod.snd hk
        subst hvw
        rw [if_pos rfl] at hget
        cases ho : alGet s.lifetimes (fn, VarKind.Slot id) with
        | none => rw [ho] at hget; cases hget
        | some lt0 =>
            rw [ho] at hget
            cases hget
            have h2 := hg _ lt0 ho
            simpa using h2
      · rw [if_neg hk] at hget
        exact hg v lt hget

theorem applyPrim_mono {fn : String} {s : Scanner} {c : Nat} {p : ScanPrim}
    (hc : s.instr_count = c) (hg : GoodL fn s.lifetimes c) :
    ∀ v lt, alGet s.lifetimes (fn, v) = some lt →
      ∃ lt', alGet (applyPrim fn s p).lifetimes (fn, v) = some lt' ∧
        lt.endIdx ≤ lt'.endIdx := by
  intro v lt hv
  cases p with
  | defOp w f h =>
      simp only [applyPrim]
      rw [record_def_alGet]
      by_cases hk : ((fn, v) : String × VarKind) = (fn, w)
      · have hvw : v = w := by simpa using congrArg Prod.snd hk
        subst hvw
        rw [if_pos rfl, hv]
        exact ⟨_, rfl, by simp [defMassage]⟩
      · rw [if_neg hk]
        exact ⟨lt, hv, le_refl _⟩
  | useOp op =>
      simp only [applyPrim]
      rw [record_use_alGet]
      rcases hov : operandVar op with _ | w <;> simp only
      · exact ⟨lt, hv, le_refl _⟩
      · by_cases hk : ((fn, v) : String × VarKind) = (fn, w)
        · have hvw : v = w := by simpa using congrArg Prod.snd hk
          subst hvw
          rw [if_pos rfl, hv]
          exact ⟨_, rfl, by simp⟩
        · rw [if_neg hk]
          exact ⟨lt, hv, le_refl _⟩
  | extendOp op =>
      simp only [applyPrim]
      rw [extend_past_call_alGet]
      cases op <;> try exact ⟨lt, hv, le_refl _⟩
      rename_i id
      simp only
      by_cases hk : ((fn, v) : String × VarKind) = (fn, VarKind.Reg id)
      · have hvw : v = VarKind.Reg id := by simpa using congrArg Prod.snd hk
        subst hvw
        rw [if_pos rfl, hv]
        refine ⟨_, rfl, ?_⟩
        have h2 := hg _ lt hv
        simp only [hc]
        omega
      · rw [if_neg hk]
        exact ⟨lt, hv, le_refl _⟩
  | typeOp dst ty =>
      simp only [applyPrim]
      rw [slot_type_update_alGet]
      cases dst <;> cases ty <;> try exact ⟨lt, hv, le_refl _⟩
      rename_i id t
      simp only
      by_cases hk : ((fn, v) : String × VarKind) = (fn, VarKind.Slot id)
      · have hvw : v = VarKind.Slot id := by simpa using congrArg Prod.snd hk
        subst hvw
        rw [if_pos rfl, hv]
        exact ⟨_, rfl, by simp⟩
      · rw [if_neg hk]
        exact ⟨lt, hv, le_refl _⟩

theorem applyPrim_none {fn : String} {s : Scanner} {p : ScanPrim} :
    ∀ v, alGet s.lifetimes (fn, v) = none →
      alGet (applyPrim fn s p).lifetimes (fn, v) = none ∨
        ∃ f h, p = ScanPrim.defOp v f h := by
  intro v hv
  cases p with
  | defOp w f h =>
      by_cases hk : v = w
      · exact Or.inr ⟨f, h, by rw [hk]⟩
      · left
        simp only [applyPrim]
        rw [record_def_alGet]
        rw [if_neg (by simp [hk])]
        exact hv
  | useOp op =>
      left
      simp only [applyPrim]
      rw [record_use_alGet]
      rcases hov : operandVar op with _ | w <;> simp only
      · exact hv
      · by_cases hk : ((fn, v) : String × VarKind) = (fn, w)
        · have hvw : v = w := by simpa using congrArg Prod.snd hk
          subst hvw
          rw [if_pos rfl, hv]
          rfl
        · rw [if_neg hk]
          exact hv
  | extendOp op =>
      left
      simp only [applyPrim]
      rw [extend_past_call_alGet]
      cases op <;> try exact hv
      rename_i id
      simp only
      by_cases hk : ((fn, v) : String × VarKind) = (fn, VarKind.Reg id)
      · have hvw : v = VarKind.Reg id := by simpa using congrArg Prod.snd hk
        subst hvw
        rw [if_pos rfl, hv]
        rfl
      · rw [if_neg hk]
        exact hv
  | typeOp dst ty =>
      left
      simp only [applyPrim]
      rw [slot_type_update_alGet]
      cases dst <;> cases ty <;> try exact hv
      rename_i id t
      simp only
      by_cases hk : ((fn, v) : String × VarKind) = (fn, VarKind.Slot id)
      · have hvw : v = VarKind.Slot id := by simpa using congrArg Prod.snd hk
        subst hvw
        rw [if_pos rfl, hv]
        rfl
      · rw [if_neg hk]
        exact hv

theorem applyOps_good {fn : String} {c : Nat} :
    ∀ (ops : List ScanPrim) (s : Scanner), s.instr_count = c →
      GoodL fn s.lifetimes c → GoodL fn (applyOps fn s ops).lifetimes c := by
  intro ops
  induction ops with
  | nil => intro s _ hg; exact hg
  | cons p ops ih =>
      intro s hc hg
      rw [applyOps, List.foldl_cons, ← applyOps]
      exact ih _ (by rw [applyPrim_instr_count]; exact hc) (applyPrim_good hc hg)

theorem applyOps_mono {fn : String} {c : Nat} :
    ∀ (ops : List ScanPrim) (s : Scanner), s.instr_count = c →
      GoodL fn s.lifetimes c →
      ∀ v lt, alGet s.lifetimes (fn, v) = some lt →
        ∃ lt', alGet (applyOps fn s ops).lifetimes (fn, v) = some lt' ∧
          lt.endIdx ≤ lt'.endIdx := by
  intro ops
  induction ops with
  | nil => intro s _ _ v lt hv; exact ⟨lt, hv, le_refl _⟩
  | cons p ops ih =>
      intro s hc hg v lt hv
      obtain ⟨lt1, h1, hle1⟩ := applyPrim_mono hc hg v lt hv
      rw [applyOps, List.foldl_cons, ← applyOps]
      obtain ⟨lt2, h2, hle2⟩ :=
        ih _ (by rw [applyPrim_instr_count]; exact hc) (applyPrim_good hc hg) v lt1 h1
      exact ⟨lt2, h2, le_trans hle1 hle2⟩

theorem applyOps_none {fn : String} :
    ∀ (ops : List ScanPrim) (s : Scanner) (v : VarKind),
      alGet s.lifetimes (fn, v) = none →
      alGet (applyOps fn s ops).lifetimes (fn, v) = none ∨
        ∃ f h, ScanPrim.defOp v f h ∈ ops := by
  intro ops
  induction ops with
  | nil => intro s v hv; exact Or.inl hv
  | cons p ops ih =>
      intro s v hv
      rw [applyOps, List.foldl_cons, ← applyOps]
      rcases applyPrim_none (p := p) v hv with hnone | ⟨f, h, hp⟩
      · rcases ih _ v hnone with hnone2 | ⟨f, h, hmem⟩
        · exact Or.inl hnone2
        · exact Or.inr ⟨f, h, List.mem_cons_of_mem _ hmem⟩
      · exact Or.inr ⟨f, h, by rw [hp]; exact List.mem_cons_self ..⟩

theorem applyOps_use {fn : String} {c : Nat} :
    ∀ (ops : List ScanPrim) (s : Scanner), s.instr_count = c →
      GoodL fn s.lifetimes c →
      ∀ (op : IROperand) (v : VarKind) (lt : Lifetime),
        ScanPrim.useOp op ∈ ops → operandVar op = some v →
        alGet s.lifetimes (fn, v) = some lt →
        ∃ lt', alGet (applyOps fn s ops).lifetimes (fn, v) = some lt' ∧
          c ≤ lt'.endIdx := by
  intro ops
  induction ops with
  | nil => intro s _ _ op v lt hmem; cases hmem
  | cons p ops ih =>
      intro s hc hg op v lt hmem hov hv
      rw [applyOps, List.foldl_cons, ← applyOps]
      rcases List.mem_cons.mp hmem with hp | hmem2
      · subst hp
        have hafter : alGet (applyPrim fn s (ScanPrim.useOp op)).lifetimes (fn, v) =
            some { (lt) with endIdx := max lt.endIdx s.instr_count } := by
          simp only [applyPrim]
          rw [record_use_alGet, hov]
          simp [hv]
        obtain ⟨lt2, h2, hle2⟩ :=
          applyOps_mono ops _ (by rw [applyPrim_instr_count]; exact hc)
            (applyPrim_good hc hg) v _ hafter
        refine ⟨lt2, h2, ?_⟩
        simp only [hc] at hle2
        omega
      · obtain ⟨lt1, h1, _⟩ := applyPrim_mono hc hg v lt hv
        exact ih _ (by rw [applyPrim_instr_count]; exact hc)
          (applyPrim_good hc hg) op v lt1 hmem2 hov h1

theorem applyOps_def {fn : String} {c : Nat} :
    ∀ (ops : List ScanPrim) (s : Scanner), s.instr_count = c →
      GoodL fn s.lifetimes c →
      ∀ (v : VarKind) (f : Bool) (h : Option String),
        ScanPrim.defOp v f h ∈ ops →
        alGet s.lifetimes (fn, v) = none →
        ∃ lt', alGet (applyOps fn s ops).lifetimes (fn, v) = some lt' ∧
          c ≤ lt'.endIdx := by
  intro ops
  induction ops with
  | nil => intro s _ _ v f h hmem; cases hmem
  | cons p ops ih =>
      intro s hc hg v f h hmem hv
      rw [applyOps, List.foldl_cons, ← applyOps]
      by_cases hpdef : ∃ f' h', p = ScanPrim.defOp v f' h'
      · obtain ⟨f', h', hp⟩ := hpdef
        subst hp
        have hafter : alGet (applyPrim fn s (ScanPrim.defOp v f' h')).lifetimes
            (fn, v) = some ⟨s.instr_count, s.instr_count, f', h'⟩ := by
          simp only [applyPrim]
          rw [record_def_alGet, if_pos rfl, hv]
          rfl
        obtain ⟨lt2, h2, hle2⟩ :=
          applyOps_mono ops _ (by rw [applyPrim_instr_count]; exact hc)
            (applyPrim_good hc hg) v _ hafter
        refine ⟨lt2, h2, ?_⟩
        simp only [hc] at hle2
        omega
      · have hmem2 : ScanPrim.defOp v f h ∈ ops := by
          rcases List.mem_cons.mp hmem with hp | hmem2
          · exact absurd ⟨f, h, hp.symm⟩ hpdef
          · exact hmem2
        rcases applyPrim_none (p := p) v hv with hnone | ⟨f', h', hp⟩
        · exact ih _ (by rw [applyPrim_instr_count]; exact hc)
            (applyPrim_good hc hg) v f h hmem2 hnone
        · exact absurd ⟨f', h', hp⟩ hpdef

/-! ### Agreement between `primsOf` and the def/use view -/

theorem itemDefs_reg {v : VarKind} {it : ScanItem} (h : v ∈ itemDefs it) :
    ∃ r, v = VarKind.Reg r := by
  cases it with
  | term t => cases h
  | instr i => cases i <;> simp [itemDefs, insDefs] at h <;> exact ⟨_, h⟩

theorem defOp_mem_primsOf {s : Scanner} {fn : String} {i : IRInstruction}
    {v : VarKind} {f : Bool} {h : Option String}
    (hmem : ScanPrim.defOp v f h ∈ primsOf s fn i) : v ∈ insDefs i := by
  cases i <;> simp_all [primsOf, insDefs]

theorem insDefs_mem_primsOf {s : Scanner} {fn : String} {i : IRInstruction}
    {v : VarKind} (hv : v ∈ insDefs i) :
    ∃ f h, ScanPrim.defOp v f h ∈ primsOf s fn i := by
  cases i <;> simp_all [primsOf, insDefs] <;> exact ⟨_, by simp⟩

theorem insUses_mem_primsOf {s : Scanner} {fn : String} {i : IRInstruction}
    {v : VarKind} (hv : v ∈ insUses i) :
    ∃ op, ScanPrim.useOp op ∈ primsOf s fn i ∧ operandVar op = some v := by
  cases i <;> simp only [insUses, List.mem_filterMap] at hv
  case LoadImm => cases hv
  all_goals
    obtain ⟨op, hopmem, hop⟩ := hv
    refine ⟨op, ?_, hop⟩
    simp [primsOf]
    simp at hopmem
    first
      | tauto
      | (rcases hopmem with h1 | h1 <;> simp [h1] <;> tauto)

theorem termUses_mem_termPrims {t : IRTerminator} {v : VarKind}
    (hv : v ∈ termUses t) :
    ∃ op, ScanPrim.useOp op ∈ termPrims t ∧ operandVar op = some v := by
  cases t <;> simp only [termUses, List.mem_filterMap] at hv
  case Return =>
    obtain ⟨op, hopmem, hop⟩ := hv
    exact ⟨op, by simp [termPrims]; exact hopmem, hop⟩
  case Branch =>
    obtain ⟨op, hopmem, hop⟩ := hv
    simp at hopmem
    subst hopmem
    exact ⟨op, by simp [termPrims], hop⟩
  all_goals cases hv

theorem termPrims_no_def {t : IRTerminator} {v : VarKind} {f : Bool}
    {h : Option String} (hmem : ScanPrim.defOp v f h ∈ termPrims t) : False := by
  cases t <;> simp_all [termPrims]

def itemPrims (s : Scanner) (fn : String) : ScanItem → List ScanPrim
  | .instr i => primsOf s fn i
  | .term t => termPrims t

theorem scanStep_lifetimes (fn : String) (s : Scanner) (it : ScanItem) :
    (scanStep fn s it).lifetimes =
      (applyOps fn { s with instr_count := s.instr_count + 1 }
        (itemPrims { s with instr_count := s.instr_count + 1 } fn it)).lifetimes := by
  cases it with
  | instr i => exact process_instr_lifetimes ..
  | term t => simp [scanStep, process_terminator_eq, itemPrims]

theorem itemDefs_mem_itemPrims {s : Scanner} {fn : String} {it : ScanItem}
    {v : VarKind} (hv : v ∈ itemDefs it) :
    ∃ f h, ScanPrim.defOp v f h ∈ itemPrims s fn it := by
  cases it with
  | instr i => exact insDefs_mem_primsOf hv
  | term t => cases hv

theorem defOp_mem_itemPrims {s : Scanner} {fn : String} {it : ScanItem}
    {v : VarKind} {f : Bool} {h : Option String}
    (hmem : ScanPrim.defOp v f h ∈ itemPrims s fn it) : v ∈ itemDefs it := by
  cases it with
  | instr i => exact defOp_mem_primsOf hmem
  | term t => exact absurd hmem (fun hc => termPrims_no_def hc)

theorem itemUses_mem_itemPrims {s : Scanner} {fn : String} {it : ScanItem}
    {v : VarKind} (hv : v ∈ itemUses it) :
    ∃ op, ScanPrim.useOp op ∈ itemPrims s fn it ∧ operandVar op = some v := by
  cases it with
  | instr i => exact insUses_mem_primsOf hv
  | term t => exact termUses_mem_termPrims hv

theorem scanStep_good {fn : String} {s : Scanner} (it : ScanItem)
    (hg : GoodL fn s.lifetimes s.instr_count) :
    GoodL fn (scanStep fn s it).lifetimes (s.instr_count + 1) := by
  rw [scanStep_lifetimes]
  exact applyOps_good _ { s with instr_count := s.instr_count + 1 } rfl
    (hg.weaken (by show s.instr_count ≤ s.instr_count + 1; omega))

theorem scanSteps_good (fn : String) :
    ∀ (items : List ScanItem) (s : Scanner),
      GoodL fn s.lifetimes s.instr_count →
      GoodL fn (items.foldl (scanStep fn) s).lifetimes
        (items.foldl (scanStep fn) s).instr_count := by
  intro items
  induction items with
  | nil => intro s hg; exact hg
  | cons it rest ih =>
      intro s hg
      rw [List.foldl_cons]
      have := scanStep_good it hg
      rw [← scanStep_count fn s it] at this
      exact ih _ this

theorem scanSteps_mono (fn : String) :
    ∀ (items : List ScanItem) (s : Scanner),
      GoodL fn s.lifetimes s.instr_count →
      ∀ v lt, alGet s.lifetimes (fn, v) = some lt →
        ∃ lt', alGet (items.foldl (scanStep fn) s).lifetimes (fn, v) = some lt' ∧
          lt.endIdx ≤ lt'.endIdx := by
  intro items
  induction items with
  | nil => intro s _ v lt hv; exact ⟨lt, hv, le_refl _⟩
  | cons it rest ih =>
      intro s hg v lt hv
      rw [List.foldl_cons]
      have hstep : ∃ lt1, alGet (scanStep fn s it).lifetimes (fn, v) = some lt1 ∧
          lt.endIdx ≤ lt1.endIdx := by
        rw [scanStep_lifetimes]
        exact applyOps_mono _ { s with instr_count := s.instr_count + 1 } rfl
          (hg.weaken (by show s.instr_count ≤ s.instr_count + 1; omega)) v lt hv
      obtain ⟨lt1, h1, hle1⟩ := hstep
      have hg' := scanStep_good it hg
      rw [← scanStep_count fn s it] at hg'
      obtain ⟨lt2, h2, hle2⟩ := ih _ hg' v lt1 h1
      exact ⟨lt2, h2, le_trans hle1 hle2⟩

theorem scanSteps_creation (fn : String) :
    ∀ (items : List ScanItem) (s : Scanner) (v : VarKind),
      alGet s.lifetimes (fn, v) = none →
      alGet (items.foldl (scanStep fn) s).lifetimes (fn, v) = none ∨
        v ∈ (items.map itemDefs).flatten := by
  intro items
  induction items with
  | nil => intro s v hv; exact Or.inl hv
  | cons it rest ih =>
      intro s v hv
      rw [List.foldl_cons]
      have hstep : alGet (scanStep fn s it).lifetimes (fn, v) = none ∨
          v ∈ itemDefs it := by
        rw [scanStep_lifetimes]
        rcases applyOps_none _ { s with instr_count := s.instr_count + 1 } v hv with
            hn | ⟨f, h, hdefop⟩
        · exact Or.inl hn
        · exact Or.inr (defOp_mem_itemPrims hdefop)
      rcases hstep with hn | hcreated
      · rcases ih _ v hn with hn2 | hmem
        · exact Or.inl hn2
        · right
          simp only [List.map_cons, List.flatten_cons, List.mem_append]
          exact Or.inr hmem
      · right
        simp only [List.map_cons, List.flatten_cons, List.mem_append]
        exact Or.inl hcreated

/-- The core lifetime property of the scan: the recorded `end` of every
variable covers the scan index of every def/use occurrence, provided each
temporary has at most one defining instruction (`hssa`) and none of the
variables to be defined is already recorded (`hfresh`). -/
theorem scan_items_master (fn : String) :
    ∀ (items : List ScanItem) (s : Scanner),
      GoodL fn s.lifetimes s.instr_count →
      (∀ v, v ∈ (items.map itemDefs).flatten → alGet s.lifetimes (fn, v) = none) →
      ((items.map itemDefs).flatten).Nodup →
      ∀ v lt,
        alGet (items.foldl (scanStep fn) s).lifetimes (fn, v) = some lt →
        ∀ k item, items[k]? = some item →
          (v ∈ itemDefs item ∨ v ∈ itemUses item) →
          s.instr_count + k + 1 ≤ lt.endIdx := by
  intro items
  induction items with
  | nil =>
      intro s _ _ _ v lt _ k item hk
      rw [List.getElem?_nil] at hk
      cases hk
  | cons it rest ih =>
      intro s hg hfresh hssa v lt hfin k item hk hocc
      have hflat : ((it :: rest).map itemDefs).flatten =
          itemDefs it ++ (rest.map itemDefs).flatten := by simp
      rw [hflat] at hfresh hssa
      have hg' := scanStep_good it hg
      have hg'c := hg'
      rw [← scanStep_count fn s it] at hg'c
      rw [List.foldl_cons] at hfin
      have hfresh' : ∀ w, w ∈ (rest.map itemDefs).flatten →
          alGet (scanStep fn s it).lifetimes (fn, w) = none := by
        intro w hw
        have hw0 : alGet s.lifetimes (fn, w) = none :=
          hfresh w (List.mem_append.mpr (Or.inr hw))
        rw [scanStep_lifetimes]
        rcases applyOps_none _ { s with instr_count := s.instr_count + 1 } w hw0 with
            hn | ⟨f, h, hdefop⟩
        · exact hn
        · exfalso
          have hwdef := defOp_mem_itemPrims hdefop
          have := (List.nodup_append.mp hssa).2.2
          exact this hwdef hw
      have hssa' : ((rest.map itemDefs).flatten).Nodup :=
        (List.nodup_append.mp hssa).2.1
      cases k with
      | zero =>
          rw [List.getElem?_cons_zero] at hk
          cases hk
          by_cases hdef : v ∈ itemDefs it
          · have hvnone : alGet s.lifetimes (fn, v) = none :=
              hfresh v (List.mem_append.mpr (Or.inl hdef))
            obtain ⟨f, h, hdefop⟩ := @itemDefs_mem_itemPrims
              { s with instr_count := s.instr_count + 1 } fn _ _ hdef
            have h1 : ∃ lt1, alGet (scanStep fn s it).lifetimes (fn, v) = some lt1 ∧
                s.instr_count + 1 ≤ lt1.endIdx := by
              rw [scanStep_lifetimes]
              exact applyOps_def _ { s with instr_count := s.instr_count + 1 } rfl
                (hg.weaken (by show s.instr_count ≤ s.instr_count + 1; omega)) v f h hdefop hvnone
            obtain ⟨lt1, h1a, h1b⟩ := h1
            obtain ⟨lt2, h2a, h2b⟩ := scanSteps_mono fn rest _ hg'c v lt1 h1a
            rw [hfin] at h2a
            cases h2a
            omega
          · have huse : v ∈ itemUses it := hocc.resolve_left hdef
            obtain ⟨op, hopmem, hov⟩ := @itemUses_mem_itemPrims
              { s with instr_count := s.instr_count + 1 } fn _ _ huse
            cases hvs : alGet s.lifetimes (fn, v) with
            | some lt0 =>
                have h1 : ∃ lt1, alGet (scanStep fn s it).lifetimes (fn, v) = some lt1 ∧
                    s.instr_count + 1 ≤ lt1.endIdx := by
                  rw [scanStep_lifetimes]
                  exact applyOps_use _ { s with instr_count := s.instr_count + 1 } rfl
                    (hg.weaken (by show s.instr_count ≤ s.instr_count + 1; omega)) op v lt0 hopmem hov hvs
                obtain ⟨lt1, h1a, h1b⟩ := h1
                obtain ⟨lt2, h2a, h2b⟩ := scanSteps_mono fn rest _ hg'c v lt1 h1a
                rw [hfin] at h2a
                cases h2a
                omega
            | none =>
                have h1 : alGet (scanStep fn s it).lifetimes (fn, v) = none := by
                  rw [scanStep_lifetimes]
                  rcases applyOps_none _ { s with instr_count := s.instr_count + 1 } v hvs with
                    hn | ⟨f, h, hdefop⟩
                  · exact hn
                  · exact absurd (defOp_mem_itemPrims hdefop) hdef
                rcases scanSteps_creation fn rest _ v h1 with hn2 | hcreated
                · rw [hfin] at hn2
                  cases hn2
                · obtain ⟨dl, hdl, hvdl⟩ := List.mem_flatten.mp hcreated
                  obtain ⟨item', hitem', hdleq⟩ := List.mem_map.mp hdl
                  subst hdleq
                  obtain ⟨k', hk'lt, hk'⟩ := List.mem_iff_getElem.mp hitem'
                  have hk'opt : rest[k']? = some item' := by
                    rw [List.getElem?_eq_getElem hk'lt, hk']
                  have := ih _ hg'c hfresh' hssa' v lt hfin k' item' hk'opt
                    (Or.inl hvdl)
                  rw [scanStep_count] at this
                  omega
      | succ k' =>
          rw [List.getElem?_cons_succ] at hk
          have := ih _ hg'c hfresh' hssa' v lt hfin k' item hk hocc
          rw [scanStep_count] at this
          omega

theorem slot_loop_eq (fn : String) :
    ∀ (l : List (String × Nat)) (s : Scanner),
      l.foldl (fun acc kv => record_def acc fn (.Slot kv.2) true none) s =
        applyOps fn s (l.map (fun kv => ScanPrim.defOp (.Slot kv.2) true none)) := by
  intro l
  induction l with
  | nil => intro s; rfl
  | cons kv l ih =>
      intro s
      rw [List.foldl_cons, ih]
      rfl

/-- C6: after the lifetime scan of any IR function, every recorded
variable satisfies `start ≤ end`, and `end` is at least the scan index of
every (hence the last) def or use of that variable.  `hclean` says the
function has not been scanned before (as in `global_scan`, where each
function of the module is scanned once); `hssa` is the SSA discipline of
the IR generator: each virtual register is the destination of at most one
instruction. -/
theorem C6_lifetime_monotonicity (s : Scanner) (func : IRFunction)
    (hcount : s.instr_count = 0)
    (hclean : ∀ v : VarKind, alGet s.lifetimes (func.name, v) = none)
    (hssa : (((scanItems func).map itemDefs).flatten).Nodup) :
    ∀ v lt, alGet (scan_lifetimes s func).lifetimes (func.name, v) = some lt →
      lt.start ≤ lt.endIdx ∧
      ∀ k item, (scanItems func)[k]? = some item →
        (v ∈ itemDefs item ∨ v ∈ itemUses item) → k + 1 ≤ lt.endIdx := by
  intro v lt hfin
  have hg : GoodL func.name s.lifetimes 0 := by
    intro w lt0 hw
    rw [hclean w] at hw
    cases hw
  have hscan : scan_lifetimes s func =
      (scanItems func).foldl (scanStep func.name)
        (applyOps func.name s
          (func.local_variables.map
            (fun kv => ScanPrim.defOp (.Slot kv.2) true none))) := by
    rw [scan_lifetimes, slot_loop_eq]
  have hs0c : (applyOps func.name s
      (func.local_variables.map
        (fun kv => ScanPrim.defOp (.Slot kv.2) true none))).instr_count = 0 := by
    rw [applyOps_instr_count]
    exact hcount
  have hg0 : GoodL func.name (applyOps func.name s
      (func.local_variables.map
        (fun kv => ScanPrim.defOp (.Slot kv.2) true none))).lifetimes 0 :=
    applyOps_good _ s hcount hg
  have hfresh0 : ∀ w, w ∈ ((scanItems func).map itemDefs).flatten →
      alGet (applyOps func.name s
        (func.local_variables.map
          (fun kv => ScanPrim.defOp (.Slot kv.2) true none))).lifetimes
        (func.name, w) = none := by
    intro w hw
    obtain ⟨dl, hdl, hwdl⟩ := List.mem_flatten.mp hw
    obtain ⟨item, _, hdleq⟩ := List.mem_map.mp hdl
    subst hdleq
    obtain ⟨r, hr⟩ := itemDefs_reg hwdl
    rcases applyOps_none _ s w (hclean w) with hn | ⟨f, h, hdefop⟩
    · exact hn
    · exfalso
      obtain ⟨kv, _, hkv⟩ := List.mem_map.mp hdefop
      rw [hr] at hkv
      cases hkv
  constructor
  · have hfinal := scanSteps_good func.name (scanItems func) _
      (by rw [hs0c]; exact hg0)
    rw [hscan] at hfin
    exact (hfinal v lt hfin).1
  · intro k item hk hocc
    have := scan_items_master func.name (scanItems func) _
      (by rw [hs0c]; exact hg0) hfresh0 hssa v lt (by rw [← hscan]; exact hfin)
      k item hk hocc
    rw [hs0c] at this
    omega

/-- A concrete function exercising the lifetime theorem. -/
def C6func : IRFunction :=
  { name := "f"
    params := []
    basic_blocks :=
      [⟨0,
        [IRInstruction.LoadImm 0 (IROperand.ImmFloat ⟨0⟩),
         IRInstruction.Binary 1 (IROperand.Reg 0) (IROperand.Reg 0) IRBinOp.Add],
        IRTerminator.Return [IROperand.Reg 1]⟩]
    local_variables := [("x", 0)]
    upvalues := []
    sub_functions := [] }

/-- Witness for C6: the scanned lifetime of register 0 of `C6func` covers
its def (index 1) and its use (index 2). -/
theorem C6_lifetime_monotonicity_witness :
    ∃ lt, alGet (scan_lifetimes Scanner.new C6func).lifetimes
        ("f", VarKind.Reg 0) = some lt ∧
      lt.start ≤ lt.endIdx ∧ 0 + 1 ≤ lt.endIdx ∧ 1 + 1 ≤ lt.endIdx := by
  have hlook : alGet (scan_lifetimes Scanner.new C6func).lifetimes
      ("f", VarKind.Reg 0) = some ⟨1, 2, false, some "Float"⟩ := by decide
  have hmain := C6_lifetime_monotonicity Scanner.new C6func rfl (fun v => rfl)
    (by decide) (VarKind.Reg 0) _ hlook
  refine ⟨_, hlook, hmain.1, ?_, ?_⟩
  · exact hmain.2 0 (ScanItem.instr (IRInstruction.LoadImm 0 (IROperand.ImmFloat ⟨0⟩)))
      (by decide) (Or.inl (by decide))
  · exact hmain.2 1
      (ScanItem.instr
        (IRInstruction.Binary 1 (IROperand.Reg 0) (IROperand.Reg 0) IRBinOp.Add))
      (by decide) (Or.inr (by decide))

/-! ### Register allocation (`scanner.rs:75-136`) -/

/-- The stride between freshly allocated temporaries (`let stride = 4`). -/
def stride : Nat := 4

structure AllocState where
  active : List ((String × VarKind) × Lifetime × Nat)
  free_registers : List Nat   -- head models the top of the source's Vec
  next_temp_idx : Nat
  max_usage : Nat
  assignment : List ((String × VarKind) × Lifetime × Nat)
  deriving DecidableEq, Repr

/-- One iteration of the linear-scan loop (scanner.rs:112-133): evict
expired actives to the free list, reuse a freed register if possible,
else allocate `next_temp_idx` and advance by `stride`. -/
def allocStep (st : AllocState) (t : (String × VarKind) × Lifetime) : AllocState :=
  let retained := st.active.filter (fun a => ! decide (a.2.1.endIdx < t.2.start))
  let evicted := st.active.filter (fun a => decide (a.2.1.endIdx < t.2.start))
  let free1 := (evicted.map (fun a => a.2.2)).reverse ++ st.free_registers
  match free1 with
  | reused :: rest =>
      { active := retained ++ [(t.1, t.2, reused)]
        free_registers := rest
        next_temp_idx := st.next_temp_idx
        max_usage := max st.max_usage (reused + stride)
        assignment := st.assignment ++ [(t.1, t.2, reused)] }
  | [] =>
      let idx := st.next_temp_idx
      { active := retained ++ [(t.1, t.2, idx)]
        free_registers := []
        next_temp_idx := st.next_temp_idx + stride
        max_usage := max st.max_usage (idx + stride)
        assignment := st.assignment ++ [(t.1, t.2, idx)] }

/-- The slot ids recorded in `lifetimes` for a function (the
`VarKind::Slot` keys the allocator iterates). -/
def slotIdsOf (s : Scanner) (fname : String) : List Nat :=
  s.lifetimes.filterMap (fun e =>
    if e.1.1 = fname then
      match e.1.2 with
      | VarKind.Slot id => some id
      | _ => none
    else none)

/-- `num_slots` as the allocator computes it: `max (slot_id + 1)`. -/
def numSlotsOf (s : Scanner) (fname : String) : Nat :=
  (slotIdsOf s fname).foldl (fun acc id => max acc (id + 1)) 0

/-- The temporaries (`VarKind::Reg` lifetimes) of a function. -/
def tempsOf (s : Scanner) (fname : String) : List ((String × VarKind) × Lifetime) :=
  s.lifetimes.filter (fun e =>
    decide (e.1.1 = fname) &&
      (match e.1.2 with | VarKind.Reg _ => true | _ => false))

/-- `temps.sort_by_key(|(_, lt)| lt.start)`. -/
def sortedTempsOf (s : Scanner) (fname : String) :
    List ((String × VarKind) × Lifetime) :=
  (tempsOf s fname).mergeSort (fun t1 t2 => decide (t1.2.start ≤ t2.2.start))

/-- The `(key, lifetime, physical_index)` triples produced by the
linear-scan loop (the sequence of `reg_map.insert` calls it performs). -/
def tempAssignment (s : Scanner) (fname : String) :
    List ((String × VarKind) × Lifetime × Nat) :=
  ((sortedTempsOf s fname).foldl allocStep
    ⟨[], [], numSlotsOf s fname, numSlotsOf s fname, []⟩).assignment

/-- `Scanner::allocate_registers` (scanner.rs:75-136). -/
def allocate_registers (s : Scanner) (func : IRFunction) : Scanner :=
  let num_slots := numSlotsOf s func.name
  let reg_map1 := (slotIdsOf s func.name).foldl
    (fun m id => alInsert m (func.name, VarKind.Slot id) id) s.reg_map
  let final := (sortedTempsOf s func.name).foldl allocStep
    ⟨[], [], num_slots, num_slots, []⟩
  let reg_map2 := final.assignment.foldl (fun m e => alInsert m e.1 e.2.2) reg_map1
  { s with
      reg_map := reg_map2
      func_stack_info :=
        alInsert s.func_stack_info func.name (num_slots, final.max_usage + stride) }

/-- `Scanner::global_scan` (scanner.rs:52-58). -/
def global_scan (s : Scanner) (module : List IRFunction) : Scanner :=
  module.foldl
    (fun acc func =>
      allocate_registers (scan_lifetimes { acc with instr_count := 0 } func) func)
    s

/-! ### The linear-scan invariant (for C5) -/

/-- Two lifetimes overlap when neither interval ends before the other
starts. -/
def overlap (l1 l2 : Lifetime) : Prop :=
  l1.start ≤ l2.endIdx ∧ l2.start ≤ l1.endIdx

/-- The invariant the linear-scan loop maintains.  `ns` is `num_slots`
(the base of the temporary register area), `b` a lower bound on the start
of every still-unprocessed temporary. -/
structure AllocInv (ns : Nat) (st : AllocState) (b : Nat) : Prop where
  assignStart : ∀ e ∈ st.assignment, e.2.1.start ≤ b
  assignAligned : ∀ e ∈ st.assignment, ∃ m, e.2.2 = ns + stride * m
  assignBelowNext : ∀ e ∈ st.assignment, e.2.2 + stride ≤ st.next_temp_idx
  activeSub : ∀ a ∈ st.active, a ∈ st.assignment
  activeNodupReg : st.active.Pairwise (fun a1 a2 => a1.2.2 ≠ a2.2.2)
  freeNodup : st.free_registers.Nodup
  freeActiveDisj : ∀ r ∈ st.free_registers, ∀ a ∈ st.active, a.2.2 ≠ r
  freeAligned : ∀ r ∈ st.free_registers,
    (∃ m, r = ns + stride * m) ∧ r + stride ≤ st.next_temp_idx
  freeExpired : ∀ r ∈ st.free_registers, ∀ e ∈ st.assignment,
    e.2.2 = r → e.2.1.endIdx < b
  activeExpired : ∀ a ∈ st.active, ∀ e ∈ st.assignment,
    e.2.2 = a.2.2 → e ≠ a → e.2.1.endIdx < b
  pairOk : st.assignment.Pairwise
    (fun e1 e2 => e1.2.2 = e2.2.2 → e1.2.1.endIdx < e2.2.1.start)
  nextAligned : ∃ m, st.next_temp_idx = ns + stride * m

theorem allocInv_init (ns : Nat) : AllocInv ns ⟨[], [], ns, ns, []⟩ 0 := by
  refine ⟨?_, ?_, ?_, ?_, ?_, ?_, ?_, ?_, ?_, ?_, ?_, ⟨0, rfl⟩⟩ <;> simp

theorem allocStep_inv {ns : Nat} {st : AllocState} {b : Nat}
    {t : (String × VarKind) × Lifetime}
    (hinv : AllocInv ns st b) (hbt : b ≤ t.2.start) :
    AllocInv ns (allocStep st t) t.2.start := by
  obtain ⟨hStart, hAl, hBN, hAS, hANR, hFN, hFAD, hFA, hFE, hAE, hPO, hNA⟩ := hinv
  have hstride : 0 < stride := by simp [stride]
  -- the two filter halves
  have h_ret_sub : ∀ a ∈ st.active.filter
      (fun a => ! decide (a.2.1.endIdx < t.2.start)), a ∈ st.active :=
    fun a ha => List.mem_of_mem_filter ha
  have h_ev_sub : ∀ a ∈ st.active.filter
      (fun a => decide (a.2.1.endIdx < t.2.start)), a ∈ st.active :=
    fun a ha => List.mem_of_mem_filter ha
  have h_ev_expired : ∀ a ∈ st.active.filter
      (fun a => decide (a.2.1.endIdx < t.2.start)), a.2.1.endIdx < t.2.start := by
    intro a ha
    have := List.of_mem_filter ha
    simpa using this
  have h_ret_live : ∀ a ∈ st.active.filter
      (fun a => ! decide (a.2.1.endIdx < t.2.start)),
      ¬ a.2.1.endIdx < t.2.start := by
    intro a ha
    have := List.of_mem_filter ha
    simpa using this
  have hANRsym : Symmetric
      (fun a1 a2 : (String × VarKind) × Lifetime × Nat => a1.2.2 ≠ a2.2.2) :=
    fun a1 a2 h => fun hc => h hc.symm
  have h_ret_ev_ne : ∀ a ∈ st.active.filter
      (fun a => ! decide (a.2.1.endIdx < t.2.start)),
      ∀ a' ∈ st.active.filter (fun a => decide (a.2.1.endIdx < t.2.start)),
      a.2.2 ≠ a'.2.2 := by
    intro a ha a' ha'
    have hne : a ≠ a' := by
      intro hc
      subst hc
      exact h_ret_live a ha (h_ev_expired a ha')
    exact hANR.forall hANRsym (h_ret_sub a ha) (h_ev_sub a' ha') hne
  -- the free list after eviction
  have h_free1_facts : ∀ r ∈ ((st.active.filter
        (fun a => decide (a.2.1.endIdx < t.2.start))).map
          (fun a => a.2.2)).reverse ++ st.free_registers,
      (∀ e ∈ st.assignment, e.2.2 = r → e.2.1.endIdx < t.2.start) ∧
      (∃ m, r = ns + stride * m) ∧ r + stride ≤ st.next_temp_idx ∧
      (∀ a ∈ st.active.filter (fun a => ! decide (a.2.1.endIdx < t.2.start)),
        a.2.2 ≠ r) := by
    intro r hr
    rw [List.mem_append, List.mem_reverse] at hr
    rcases hr with hr | hr
    · obtain ⟨a', ha', hra⟩ := List.mem_map.mp hr
      subst hra
      have ha'act := h_ev_sub a' ha'
      have ha'asg := hAS a' ha'act
      refine ⟨?_, hAl a' ha'asg, hBN a' ha'asg, ?_⟩
      · intro e he hre
        by_cases hea : e = a'
        · subst hea
          exact h_ev_expired _ ha'
        · exact lt_of_lt_of_le (hAE a' ha'act e he hre hea) hbt
      · intro a ha
        exact h_ret_ev_ne a ha a' ha'
    · refine ⟨?_, (hFA r hr).1, (hFA r hr).2, ?_⟩
      · intro e he hre
        exact lt_of_lt_of_le (hFE r hr e he hre) hbt
      · intro a ha
        exact hFAD r hr a (h_ret_sub a ha)
  have h_free1_nodup : (((st.active.filter
        (fun a => decide (a.2.1.endIdx < t.2.start))).map
          (fun a => a.2.2)).reverse ++ st.free_registers).Nodup := by
    rw [List.nodup_append]
    refine ⟨?_, hFN, ?_⟩
    · rw [List.nodup_reverse]
      have hpw : List.Pairwise (fun r1 r2 : Nat => r1 ≠ r2)
          ((st.active.filter
            (fun a => decide (a.2.1.endIdx < t.2.start))).map
              (fun a => a.2.2)) := by
        rw [List.pairwise_map]
        exact hANR.sublist (List.filter_sublist _)
      exact hpw
    · intro r hr hr2
      rw [List.mem_reverse] at hr
      obtain ⟨a', ha', hra⟩ := List.mem_map.mp hr
      exact hFAD r hr2 a' (h_ev_sub a' ha') hra
  -- unfold the step and case on the free list
  simp only [allocStep]
  split
  case _ reused rest heq =>
    have hrmem : reused ∈ ((st.active.filter
        (fun a => decide (a.2.1.endIdx < t.2.start))).map
          (fun a => a.2.2)).reverse ++ st.free_registers := by
      rw [heq]; exact List.mem_cons_self ..
    obtain ⟨hr_exp, hr_al, hr_bn, hr_ret⟩ := h_free1_facts reused hrmem
    have hrest_sub : ∀ r ∈ rest, r ∈ ((st.active.filter
        (fun a => decide (a.2.1.endIdx < t.2.start))).map
          (fun a => a.2.2)).reverse ++ st.free_registers := by
      intro r hr
      rw [heq]
      exact List.mem_cons_of_mem _ hr
    have hrest_ne : ∀ r ∈ rest, r ≠ reused := by
      intro r hr hc
      rw [heq] at h_free1_nodup
      subst hc
      exact (List.nodup_cons.mp h_free1_nodup).1 hr
    refine ⟨?_, ?_, ?_, ?_, ?_, ?_, ?_, ?_, ?_, ?_, ?_, hNA⟩
    · intro e he
      rw [List.mem_append, List.mem_singleton] at he
      rcases he with he | he
      · exact le_trans (hStart e he) hbt
      · subst he; exact le_refl _
    · intro e he
      rw [List.mem_append, List.mem_singleton] at he
      rcases he with he | he
      · exact hAl e he
      · subst he; exact hr_al
    · intro e he
      rw [List.mem_append, List.mem_singleton] at he
      rcases he with he | he
      · exact hBN e he
      · subst he; exact hr_bn
    · intro a ha
      rw [List.mem_append, List.mem_singleton] at ha
      rw [List.mem_append, List.mem_singleton]
      rcases ha with ha | ha
      · exact Or.inl (hAS a (h_ret_sub a ha))
      · exact Or.inr ha
    · rw [List.pairwise_append]
      refine ⟨hANR.sublist (List.filter_sublist _),
        List.pairwise_singleton _ _, ?_⟩
      intro a ha a' ha'
      rw [List.mem_singleton] at ha'
      subst ha'
      exact hr_ret a ha
    · exact (List.nodup_cons.mp (heq ▸ h_free1_nodup)).2
    · intro r hr a ha
      rw [List.mem_append, List.mem_singleton] at ha
      rcases ha with ha | ha
      · exact (h_free1_facts r (hrest_sub r hr)).2.2.2 a ha
      · subst ha
        intro hc
        exact hrest_ne r hr (by simpa using hc.symm)
    · intro r hr
      exact ⟨(h_free1_facts r (hrest_sub r hr)).2.1,
        (h_free1_facts r (hrest_sub r hr)).2.2.1⟩
    · intro r hr e he hre
      rw [List.mem_append, List.mem_singleton] at he
      rcases he with he | he
      · exact (h_free1_facts r (hrest_sub r hr)).1 e he hre
      · subst he
        exact absurd (by simpa using hre : reused = r)
          (fun hc => hrest_ne r hr hc.symm)
    · intro a ha e he hre hne
      rw [List.mem_append, List.mem_singleton] at ha he
      rcases ha with ha | ha
      · rcases he with he | he
        · exact lt_of_lt_of_le (hAE a (h_ret_sub a ha) e he hre hne) hbt
        · subst he
          exact absurd (by simpa using hre.symm : a.2.2 = reused) (hr_ret a ha)
      · subst ha
        rcases he with he | he
        · exact hr_exp e he hre
        · exact absurd he hne
    · rw [List.pairwise_append]
      refine ⟨hPO, List.pairwise_singleton _ _, ?_⟩
      intro e he e' he'
      rw [List.mem_singleton] at he'
      subst he'
      intro hre
      exact hr_exp e he hre
  case _ heq =>
    have hfree_empty : ((st.active.filter
        (fun a => decide (a.2.1.endIdx < t.2.start))).map
          (fun a => a.2.2)).reverse ++ st.free_registers = [] := heq
    refine ⟨?_, ?_, ?_, ?_, ?_, ?_, ?_, ?_, ?_, ?_, ?_, ?_⟩
    · intro e he
      rw [List.mem_append, List.mem_singleton] at he
      rcases he with he | he
      · exact le_trans (hStart e he) hbt
      · subst he; exact le_refl _
    · intro e he
      rw [List.mem_append, List.mem_singleton] at he
      rcases he with he | he
      · exact hAl e he
      · subst he; exact hNA
    · intro e he
      rw [List.mem_append, List.mem_singleton] at he
      rcases he with he | he
      · have h2 := hBN e he
        show e.2.2 + stride ≤ st.next_temp_idx + stride
        omega
      · subst he
        show st.next_temp_idx + stride ≤ st.next_temp_idx + stride
        omega
    · intro a ha
      rw [List.mem_append, List.mem_singleton] at ha
      rw [List.mem_append, List.mem_singleton]
      rcases ha with ha | ha
      · exact Or.inl (hAS a (h_ret_sub a ha))
      · exact Or.inr ha
    · rw [List.pairwise_append]
      refine ⟨hANR.sublist (List.filter_sublist _),
        List.pairwise_singleton _ _, ?_⟩
      intro a ha a' ha'
      rw [List.mem_singleton] at ha'
      subst ha'
      have h2 := hBN a (hAS a (h_ret_sub a ha))
      show a.2.2 ≠ st.next_temp_idx
      omega
    · simp
    · simp
    · simp
    · simp
    · intro a ha e he hre hne
      rw [List.mem_append, List.mem_singleton] at ha he
      rcases ha with ha | ha
      · rcases he with he | he
        · exact lt_of_lt_of_le (hAE a (h_ret_sub a ha) e he hre hne) hbt
        · subst he
          have h2 := hBN a (hAS a (h_ret_sub a ha))
          have hre2 : st.next_temp_idx = a.2.2 := hre
          omega
      · subst ha
        rcases he with he | he
        · have h2 := hBN e he
          have hre2 : e.2.2 = st.next_temp_idx := hre
          omega
        · exact absurd he hne
    · rw [List.pairwise_append]
      refine ⟨hPO, List.pairwise_singleton _ _, ?_⟩
      intro e he e' he'
      rw [List.mem_singleton] at he'
      subst he'
      intro hre
      have h2 := hBN e he
      have hre2 : e.2.2 = st.next_temp_idx := hre
      omega
    · obtain ⟨m, hm⟩ := hNA
      refine ⟨m + 1, ?_⟩
      show st.next_temp_idx + stride = ns + stride * (m + 1)
      rw [hm]
      ring

theorem allocLoop_inv (ns : Nat) :
    ∀ (temps : List ((String × VarKind) × Lifetime)) (st : AllocState) (b : Nat),
      AllocInv ns st b →
      (∀ t ∈ temps, b ≤ t.2.start) →
      temps.Pairwise (fun t1 t2 => t1.2.start ≤ t2.2.start) →
      ∃ b', AllocInv ns (temps.foldl allocStep st) b' := by
  intro temps
  induction temps with
  | nil => intro st b hinv _ _; exact ⟨b, hinv⟩
  | cons t rest ih =>
      intro st b hinv hb hsorted
      rw [List.foldl_cons]
      refine ih _ t.2.start (allocStep_inv hinv (hb t (List.mem_cons_self ..)))
        ?_ (List.pairwise_cons.mp hsorted).2
      intro t' ht'
      exact (List.pairwise_cons.mp hsorted).1 t' ht'

theorem allocStep_assignment (st : AllocState) (t : (String × VarKind) × Lifetime) :
    ∃ r, (allocStep st t).assignment = st.assignment ++ [(t.1, t.2, r)] := by
  simp only [allocStep]
  split <;> exact ⟨_, rfl⟩

theorem allocLoop_keys :
    ∀ (temps : List ((String × VarKind) × Lifetime)) (st : AllocState),
      ∀ e ∈ (temps.foldl allocStep st).assignment,
        e ∈ st.assignment ∨ (e.1, e.2.1) ∈ temps := by
  intro temps
  induction temps with
  | nil => intro st e he; exact Or.inl he
  | cons t rest ih =>
      intro st e he
      rw [List.foldl_cons] at he
      rcases ih _ e he with hold | hrest
      · obtain ⟨r, hr⟩ := allocStep_assignment st t
        rw [hr, List.mem_append, List.mem_singleton] at hold
        rcases hold with hold | hold
        · exact Or.inl hold
        · right
          rw [hold]
          simp
      · exact Or.inr (List.mem_cons_of_mem _ hrest)

theorem slotFold_preserve (fn : String) :
    ∀ (ids : List Nat) (m : List ((String × VarKind) × Nat))
      (k : String × VarKind),
      (∀ id ∈ ids, ((fn, VarKind.Slot id) : String × VarKind) ≠ k) →
      alGet (ids.foldl (fun m id => alInsert m (fn, VarKind.Slot id) id) m) k =
        alGet m k := by
  intro ids
  induction ids with
  | nil => intro m k _; rfl
  | cons id0 rest ih =>
      intro m k hk
      rw [List.foldl_cons, ih _ _ (fun id hid => hk id (List.mem_cons_of_mem _ hid))]
      exact alGet_alInsert_ne _ _ _ _
        (fun hc => hk id0 (List.mem_cons_self ..) hc.symm)

theorem slotFold_lookup (fn : String) :
    ∀ (ids : List Nat) (m : List ((String × VarKind) × Nat)) (id : Nat),
      id ∈ ids →
      alGet (ids.foldl (fun m id => alInsert m (fn, VarKind.Slot id) id) m)
        (fn, VarKind.Slot id) = some id := by
  intro ids
  induction ids with
  | nil => intro m id hmem; cases hmem
  | cons id0 rest ih =>
      intro m id hmem
      by_cases hr : id ∈ rest
      · rw [List.foldl_cons]
        exact ih _ _ hr
      · have hid : id = id0 := by
          rcases List.mem_cons.mp hmem with h | h
          · exact h
          · exact absurd h hr
        subst hid
        rw [List.foldl_cons, slotFold_preserve fn rest _ _ ?_]
        · exact alGet_alInsert_self ..
        · intro id' hid' hc
          have : id' = id := by simpa using congrArg Prod.snd hc
          exact hr (this ▸ hid')

theorem regFold_preserve :
    ∀ (entries : List ((String × VarKind) × Lifetime × Nat))
      (m : List ((String × VarKind) × Nat)) (k : String × VarKind),
      (∀ e ∈ entries, e.1 ≠ k) →
      alGet (entries.foldl (fun m e => alInsert m e.1 e.2.2) m) k = alGet m k := by
  intro entries
  induction entries with
  | nil => intro m k _; rfl
  | cons e0 rest ih =>
      intro m k hk
      rw [List.foldl_cons, ih _ _ (fun e he => hk e (List.mem_cons_of_mem _ he))]
      exact alGet_alInsert_ne _ _ _ _
        (fun hc => hk e0 (List.mem_cons_self ..) hc.symm)

theorem foldMax_acc_le :
    ∀ (ids : List Nat) (acc : Nat),
      acc ≤ ids.foldl (fun a i => max a (i + 1)) acc := by
  intro ids
  induction ids with
  | nil => intro acc; exact le_refl _
  | cons id0 rest ih =>
      intro acc
      rw [List.foldl_cons]
      exact le_trans (le_max_left _ _) (ih _)

theorem foldMax_mem :
    ∀ (ids : List Nat) (acc : Nat) (id : Nat), id ∈ ids →
      id + 1 ≤ ids.foldl (fun a i => max a (i + 1)) acc := by
  intro ids
  induction ids with
  | nil => intro acc id hmem; cases hmem
  | cons id0 rest ih =>
      intro acc id hmem
      rcases List.mem_cons.mp hmem with h | h
      · subst h
        rw [List.foldl_cons]
        exact le_trans (le_max_right _ _) (foldMax_acc_le ..)
      · rw [List.foldl_cons]
        exact ih _ _ h

theorem tempsOf_reg {s : Scanner} {fname : String}
    {e : (String × VarKind) × Lifetime} (he : e ∈ tempsOf s fname) :
    e.1.1 = fname ∧ ∃ n, e.1.2 = VarKind.Reg n := by
  have h2 := List.of_mem_filter he
  rw [Bool.and_eq_true] at h2
  refine ⟨by simpa using h2.1, ?_⟩
  rcases hk : e.1.2 with n | n
  · exact ⟨n, rfl⟩
  · rw [hk] at h2
    simp at h2

theorem sortedTempsOf_mem {s : Scanner} {fname : String}
    {e : (String × VarKind) × Lifetime} :
    e ∈ sortedTempsOf s fname ↔ e ∈ tempsOf s fname :=
  (List.mergeSort_perm (tempsOf s fname) _).mem_iff

theorem sortedTempsOf_sorted (s : Scanner) (fname : String) :
    (sortedTempsOf s fname).Pairwise (fun t1 t2 => t1.2.start ≤ t2.2.start) := by
  have h := @List.sorted_mergeSort ((String × VarKind) × Lifetime)
    (fun t1 t2 => decide (t1.2.start ≤ t2.2.start))
    (by intro a b c hab hbc; simp at hab hbc ⊢; omega)
    (by intro a b; simp [Nat.le_total])
    (tempsOf s fname)
  exact h.imp (by intro a b hab; simpa using hab)

/-- C5: after register allocation of any IR function, distinct temporaries
with overlapping lifetimes get physical indices at least `stride = 4`
apart, and every local slot is assigned physical index equal to its slot
id, lying in `[0, num_locals)` (the first component of the function's
`func_stack_info` entry). -/
theorem C5_allocator_non_overlap (s : Scanner) (func : IRFunction) :
    (∀ id, id ∈ slotIdsOf s func.name →
        alGet (allocate_registers s func).reg_map
            (func.name, VarKind.Slot id) = some id ∧
        ∃ mu, alGet (allocate_registers s func).func_stack_info func.name =
            some (numSlotsOf s func.name, mu) ∧
          id < numSlotsOf s func.name) ∧
    (∀ e1 e2, e1 ∈ tempAssignment s func.name →
        e2 ∈ tempAssignment s func.name →
        e1.1 ≠ e2.1 → overlap e1.2.1 e2.2.1 →
        e1.2.2 + stride ≤ e2.2.2 ∨ e2.2.2 + stride ≤ e1.2.2) := by
  obtain ⟨b', hinv⟩ := allocLoop_inv (numSlotsOf s func.name)
    (sortedTempsOf s func.name)
    ⟨[], [], numSlotsOf s func.name, numSlotsOf s func.name, []⟩ 0
    (allocInv_init _) (fun t _ => Nat.zero_le _)
    (sortedTempsOf_sorted s func.name)
  constructor
  · intro id hid
    have hkeys : ∀ e ∈ ((sortedTempsOf s func.name).foldl allocStep
        ⟨[], [], numSlotsOf s func.name, numSlotsOf s func.name, []⟩).assignment,
        e.1 ≠ ((func.name, VarKind.Slot id) : String × VarKind) := by
      intro e he hc
      rcases allocLoop_keys _ _ e he with h0 | hmem
      · cases h0
      · obtain ⟨_, n, hreg⟩ := tempsOf_reg (sortedTempsOf_mem.mp hmem)
        rw [show e.1 = (func.name, VarKind.Slot id) from hc] at hreg
        cases hreg
    constructor
    · show alGet _ (func.name, VarKind.Slot id) = some id
      rw [allocate_registers]
      simp only
      rw [regFold_preserve _ _ _ hkeys]
      exact slotFold_lookup func.name _ _ id hid
    · refine ⟨((sortedTempsOf s func.name).foldl allocStep
          ⟨[], [], numSlotsOf s func.name, numSlotsOf s func.name, []⟩).max_usage +
            stride, ?_, ?_⟩
      · show alGet (alInsert s.func_stack_info func.name _) func.name = _
        exact alGet_alInsert_self ..
      · exact foldMax_mem _ 0 id hid
  · intro e1 e2 he1 he2 hne hov
    have hmem1 : e1 ∈ ((sortedTempsOf s func.name).foldl allocStep
        ⟨[], [], numSlotsOf s func.name, numSlotsOf s func.name, []⟩).assignment := he1
    have hmem2 : e2 ∈ ((sortedTempsOf s func.name).foldl allocStep
        ⟨[], [], numSlotsOf s func.name, numSlotsOf s func.name, []⟩).assignment := he2
    have hvne : e1 ≠ e2 := fun hc => hne (hc ▸ rfl)
    by_cases hreg : e1.2.2 = e2.2.2
    · exfalso
      have hpw := hinv.pairOk.imp
        (R := fun e1 e2 : (String × VarKind) × Lifetime × Nat =>
          e1.2.2 = e2.2.2 → e1.2.1.endIdx < e2.2.1.start)
        (S := fun e1 e2 : (String × VarKind) × Lifetime × Nat =>
          (e1.2.2 = e2.2.2 → e1.2.1.endIdx < e2.2.1.start) ∨
            (e2.2.2 = e1.2.2 → e2.2.1.endIdx < e1.2.1.start))
        (fun h => Or.inl h)
      have hsym : Symmetric (fun e1 e2 : (String × VarKind) × Lifetime × Nat =>
          (e1.2.2 = e2.2.2 → e1.2.1.endIdx < e2.2.1.start) ∨
            (e2.2.2 = e1.2.2 → e2.2.1.endIdx < e1.2.1.start)) := by
        intro a b hab
        rcases hab with h | h
        · exact Or.inr h
        · exact Or.inl h
      rcases hpw.forall hsym hmem1 hmem2 hvne with h | h
      · exact absurd hov.2 (by have := h hreg; omega)
      · exact absurd hov.1 (by have := h hreg.symm; omega)
    · obtain ⟨m1, hm1⟩ := hinv.assignAligned e1 hmem1
      obtain ⟨m2, hm2⟩ := hinv.assignAligned e2 hmem2
      simp only [stride] at hm1 hm2 ⊢
      omega

/-- A concrete scanner state (one local slot, two overlapping temps)
exercising the allocator theorem. -/
def C5scanner : Scanner :=
  { lifetimes := [(("f", VarKind.Slot 0), ⟨0, 5, true, none⟩),
                  (("f", VarKind.Reg 0), ⟨1, 3, false, none⟩),
                  (("f", VarKind.Reg 1), ⟨2, 4, false, none⟩)]
    global_vars := []
    reg_map := []
    func_stack_info := []
    instr_count := 0 }

/-- Witness for C5 at a concrete allocation: the slot keeps index 0, and
the two overlapping temporaries land on indices 1 and 5, four apart. -/
theorem C5_allocator_non_overlap_witness :
    (alGet (allocate_registers C5scanner C6func).reg_map
        ("f", VarKind.Slot 0) = some 0 ∧ 0 < numSlotsOf C5scanner "f") ∧
    ((1 : Nat) + stride ≤ 5 ∨ (5 : Nat) + stride ≤ 1) := by
  have h := C5_allocator_non_overlap C5scanner C6func
  constructor
  · have h1 := h.1 0 (by decide)
    obtain ⟨mu, _, hlt⟩ := h1.2
    exact ⟨h1.1, hlt⟩
  · have hsorted : sortedTempsOf C5scanner "f" =
        [(("f", VarKind.Reg 0), ⟨1, 3, false, none⟩),
         (("f", VarKind.Reg 1), ⟨2, 4, false, none⟩)] := by
      simp [sortedTempsOf, tempsOf, C5scanner, List.mergeSort]
    have hta : tempAssignment C5scanner "f" =
        [(("f", VarKind.Reg 0), ⟨1, 3, false, none⟩, 1),
         (("f", VarKind.Reg 1), ⟨2, 4, false, none⟩, 5)] := by
      show ((sortedTempsOf C5scanner "f").foldl allocStep
        ⟨[], [], numSlotsOf C5scanner "f", numSlotsOf C5scanner "f", []⟩).assignment = _
      rw [hsorted]
      rfl
    refine h.2 (("f", VarKind.Reg 0), ⟨1, 3, false, none⟩, 1)
      (("f", VarKind.Reg 1), ⟨2, 4, false, none⟩, 5) ?_ ?_
      (by decide) (by constructor <;> decide)
    · show _ ∈ tempAssignment C5scanner "f"
      rw [hta]
      decide
    · show _ ∈ tempAssignment C5scanner "f"
      rw [hta]
      decide

/-! ## VM data model

`src/backend/vm/stack.rs`, `src/backend/vm/mod.rs`, `src/backend/vm/heap.rs`,
`src/common/opcode.rs`.  Raw pointers (`*mut GCObject<T>`) are modelled as
`Nat` addresses into id-addressed stores.  The call stack is a `List` whose
HEAD is the TOP frame (the end of the source's `Vec`). -/

inductive UnaryOpType where
  | Neg | Not | Len
  deriving DecidableEq, Repr

/-- `OpCode` (`src/common/opcode.rs`), plus the `Mod`, `GetUpVal` and
`SetUpVal` variants that the dispatcher (`dispatch/mod.rs`) and emitter
match on but which the (stale) `opcode.rs` in the snapshot omits. -/
inductive OpCode where
  | LoadK (dest const_idx : Nat)
  | LoadNil (dest : Nat)
  | LoadBool (dest : Nat) (value : Bool)
  | Move (dest src : Nat)
  | GetGlobal (dest name_idx : Nat)
  | SetGlobal (name_idx src : Nat)
  | GetUpVal (dest upval_idx : Nat)
  | SetUpVal (upval_idx src : Nat)
  | Add (dest left right : Nat)
  | Sub (dest left right : Nat)
  | Mul (dest left right : Nat)
  | Div (dest left right : Nat)
  | Mod (dest left right : Nat)
  | Pow (dest left right : Nat)
  | Concat (dest left right : Nat)
  | And (dest left right : Nat)
  | Or (dest left right : Nat)
  | UnOp (dest src : Nat) (op : UnaryOpType)
  | Eq (dest left right : Nat)
  | Ne (dest left right : Nat)
  | Lt (dest left right : Nat)
  | Gt (dest left right : Nat)
  | Le (dest left right : Nat)
  | Ge (dest left right : Nat)
  | Test (reg : Nat)
  | Jump (offset : Int)
  | NewTable (dest size_array size_hash : Nat)
  | GetTable (dest table key : Nat)
  | SetTable (table key value : Nat)
  | FnProto (dest proto_idx : Nat)
  | Call (func_reg argc retc : Nat)
  | Push (src : Nat)
  | Return (start count : Nat)
  | Halt
  deriving DecidableEq, Repr

/-- Modelled from the spec: `LuaUpValueState`/`LuaUpValue` are used by
`dispatch/access.rs` and `dispatch/fn_proto.rs` but their definitions are
missing from the snapshot's `src/common/object.rs`.  Spec §3, UpValue
Object: `state: Open(stack_index) | Closed(Value)`. -/
inductive LuaUpValueState where
  | Open (idx : Nat) : LuaUpValueState
  | Closed (v : LuaValue) : LuaUpValueState
  deriving DecidableEq, Repr

structure LuaUpValue where
  value : LuaUpValueState
  deriving DecidableEq, Repr

inductive ObjectKind where
  | String | Table | Function
  deriving DecidableEq, Repr

/-- `LuaTable { data: HashMap<LuaValue, LuaValue>, metatable }` as used by
`dispatch/table.rs` (the snapshot's `object.rs` is stale here). -/
structure LuaTable where
  data : List (LuaValue × LuaValue)
  metatable : Option Nat
  deriving DecidableEq, Repr

/-- `LFunction` as constructed by `dispatch/fn_proto.rs`. -/
structure LFunction where
  name : String
  opcodes : List OpCode
  constants : List LuaValue
  upvalues : List Nat
  num_locals : Nat
  max_stack_size : Nat
  deriving DecidableEq, Repr

inductive GCData where
  | str (s : String) : GCData
  | tbl (t : LuaTable) : GCData
  | func (f : LFunction) : GCData
  deriving DecidableEq, Repr

/-- A GC object: header (`mark`, `kind`, `size`, the intrusive `next`
being the list order) plus payload. -/
structure GCObj where
  mark : Bool
  kind : ObjectKind
  size : Nat
  data : GCData
  deriving DecidableEq, Repr

/-- Representative values for the `size_of`-based constants of `heap.rs`
(the exact byte counts are platform-dependent and irrelevant to every
claim; only the accounting structure matters). -/
def sizeOfGCObjString : Nat := 48

def sizeOfGCObjTable : Nat := 64

def sizeOfGCObjFunction : Nat := 96

def sizeOfTableEntry : Nat := 32

def sizeOfOpCodeVal : Nat := 16

def sizeOfLuaValueVal : Nat := 16

def MAX_CALL_STACK : Nat := 1000

def HARD_MEMORY_LIMIT : Nat := 1024 * 1024 * 512

def VM_THRESHOLD : Nat := 1024 * 1024

/-- The heap (`heap.rs`): the intrusive object list (head = most recently
allocated), the string intern map, byte accounting, plus the modelled
store of upvalue cells (`alloc_upvalue_object` is called by `fn_proto.rs`
but missing from `heap.rs`; cells are id-addressed by allocation order). -/
structure Heap where
  all_objects : List (Nat × GCObj)
  string_pool : List (String × Nat)
  upvals : List LuaUpValue
  total_allocated : Nat
  threshold : Nat
  max_allocated : Nat
  next_addr : Nat
  deriving Repr

def Heap.new : Heap := ⟨[], [], [], 0, VM_THRESHOLD, 0, 0⟩

/-- `Heap::alloc_raw_object` (heap.rs:72-95). -/
def Heap.alloc_raw_object (h : Heap) (data : GCData) (kind : ObjectKind)
    (size : Nat) : Option (Nat × Heap) :=
  if h.total_allocated + size > HARD_MEMORY_LIMIT then none
  else
    let ptr := h.next_addr
    let total := h.total_allocated + size
    some (ptr,
      { h with
          all_objects := (ptr, ⟨false, kind, size, data⟩) :: h.all_objects
          total_allocated := total
          max_allocated := max h.max_allocated total
          next_addr := h.next_addr + 1 })

/-- `Heap::alloc_string` (heap.rs:42-56): intern-map hit returns the
existing reference; the string's heap capacity is modelled by its length. -/
def Heap.alloc_string (h : Heap) (s : String) : Option (Nat × Heap) :=
  match (h.string_pool.find? (fun e => e.1 == s)).map (fun e => e.2) with
  | some ptr => some (ptr, h)
  | none =>
      match h.alloc_raw_object (.str s) .String (sizeOfGCObjString + s.length) with
      | some (ptr, h2) =>
          some (ptr, { h2 with string_pool := h2.string_pool ++ [(s, ptr)] })
      | none => none

/-- `Heap::alloc_table` (heap.rs:57-62). -/
def Heap.alloc_table (h : Heap) (t : LuaTable) : Option (Nat × Heap) :=
  h.alloc_raw_object (.tbl t) .Table
    (sizeOfGCObjTable + t.data.length * sizeOfTableEntry)

/-- `Heap::alloc_function` (heap.rs:64-70). -/
def Heap.alloc_function (h : Heap) (f : LFunction) : Option (Nat × Heap) :=
  h.alloc_raw_object (.func f) .Function
    (sizeOfGCObjFunction + f.opcodes.length * sizeOfOpCodeVal +
      f.constants.length * sizeOfLuaValueVal)

/-- Modelled from the spec: `alloc_upvalue_object` is called by
`fn_proto.rs` but not defined in `heap.rs`; it allocates a fresh upvalue
cell (id = allocation order) and always succeeds within the model's store. -/
def Heap.alloc_upvalue_object (h : Heap) (u : LuaUpValue) : Nat × Heap :=
  (h.upvals.length, { h with upvals := h.upvals ++ [u] })

def Heap.check_gc_condition (h : Heap) : Bool := h.total_allocated > h.threshold

def Heap.expand_threshold (h : Heap) : Heap := { h with threshold := h.threshold * 2 }

def heapGet (h : Heap) (ptr : Nat) : Option GCObj :=
  (h.all_objects.find? (fun e => e.1 == ptr)).map (fun e => e.2)

/-- `GlobalStack` (stack.rs:22-46). -/
structure GlobalStack where
  values : List LuaValue
  deriving DecidableEq, Repr

def GlobalStack.reserve (g : GlobalStack) (min_size : Nat) : GlobalStack :=
  if g.values.length < min_size then
    ⟨g.values ++ List.replicate (min_size - g.values.length) LuaValue.Nil⟩
  else g

def GlobalStack.push (g : GlobalStack) (val : LuaValue) : GlobalStack :=
  ⟨g.values ++ [val]⟩

/-- `GlobalStack::restore` (stack.rs:43-45): truncate to `offset`. -/
def GlobalStack.restore (g : GlobalStack) (offset : Nat) : GlobalStack :=
  ⟨g.values.take offset⟩

/-- `StackFrame` (stack.rs:10-20).  `upvalues` and `out_upvalues` hold ids
of upvalue cells. -/
structure StackFrame where
  func_name : String
  base_offset : Nat
  reg_count : Nat
  pc : Nat
  ret_dest : Option Nat
  upvalues : List Nat
  out_upvalues : List (Nat × Nat)
  deriving DecidableEq, Repr

def StackFrame.reg_absolute (f : StackFrame) (idx : Nat) : Nat :=
  f.base_offset + idx

/-- `StackFrame::get_reg`: indexing out of range panics in Rust; the model
returns `Nil` there, and every theorem stays within bounds. -/
def StackFrame.get_reg (f : StackFrame) (idx : Nat) (g : GlobalStack) : LuaValue :=
  g.values.getD (f.base_offset + idx) LuaValue.Nil

/-- `StackFrame::set_reg`: out-of-range writes panic in Rust; `List.set`
is a no-op there, and every theorem stays within bounds. -/
def StackFrame.set_reg (f : StackFrame) (idx : Nat) (val : LuaValue)
    (g : GlobalStack) : GlobalStack :=
  ⟨g.values.set (f.base_offset + idx) val⟩

/-- `FuncMetadata` (vm/mod.rs:53-61). `reg_metadata` is only read by the
disabled `cleanup_expired_registers` and is not carried. -/
structure FuncMetadata where
  bytecode : List OpCode
  constants : List LuaValue
  num_locals : Nat
  max_stack_size : Nat
  upvalues_metadata : List IRUpVal
  child_protos : List String
  deriving Repr

/-- `ErrorKind` (vm/error.rs), plus `MultipleReturnValues` and
`UndefinedUpValue`, which `handle_return`/`access.rs` construct and the
spec (§4.8) lists, but which the snapshot's `error.rs` omits. -/
inductive ErrorKind where
  | TypeError (msg : String)
  | UndefinedVariable (name : String)
  | InvalidCall (msg : String)
  | ArithmeticError (msg : String)
  | StackOverflow
  | OutOfMemory
  | InternalError (msg : String)
  | MultipleReturnValues (msg : String)
  | UndefinedUpValue (idx : Nat)
  deriving DecidableEq, Repr

structure VMError where
  kind : ErrorKind
  func_name : String
  pc : Nat
  stack_trace : List String
  deriving DecidableEq, Repr

/-- The VM state (vm/mod.rs:67-75); `module` and `log_level` are not
carried (printing only). -/
structure VirtualMachine where
  call_stack : List StackFrame
  value_stack : GlobalStack
  globals : List (String × LuaValue)
  func_meta : List (String × FuncMetadata)
  heap : Heap
  deriving Repr

namespace VirtualMachine

/-- `self.error(kind)` (vm/mod.rs:336-355).  The source's traceback is
collected bottom-up (`Vec` order); the model's call stack is top-first,
hence the `reverse`. -/
def error (vm : VirtualMachine) (kind : ErrorKind) : VMError :=
  let fp := match vm.call_stack with
    | f :: _ => (f.func_name, f.pc)
    | [] => ("<unknown_context>", 0)
  { kind,
    func_name := fp.1
    pc := fp.2
    stack_trace := (vm.call_stack.map (fun f => f.func_name)).reverse }

/-- `self.get_reg(idx)` reads from the top frame (`.last().unwrap()`; the
dispatch loop guarantees a frame). -/
def get_reg (vm : VirtualMachine) (idx : Nat) : LuaValue :=
  match vm.call_stack with
  | f :: _ => f.get_reg idx vm.value_stack
  | [] => LuaValue.Nil

def set_reg (vm : VirtualMachine) (idx : Nat) (val : LuaValue) : VirtualMachine :=
  match vm.call_stack with
  | f :: rest =>
      { vm with value_stack := f.set_reg idx val vm.value_stack,
                call_stack := f :: rest }
  | [] => vm

/-- `self.call_stack.last_mut().unwrap().pc += 1`. -/
def bump_pc (vm : VirtualMachine) : VirtualMachine :=
  match vm.call_stack with
  | f :: rest => { vm with call_stack := { f with pc := f.pc + 1 } :: rest }
  | [] => vm

end VirtualMachine

/-- `HashMap<LuaValue, LuaValue>::get` for a table's `data`, with the same
probe semantics (hash bucket plus `Eq`) as the emitter's constant map. -/
def luaMapGet (m : List (LuaValue × LuaValue)) (k : LuaValue) : Option LuaValue :=
  (m.find? (fun e => LuaValue.probeEq e.1 k)).map (fun e => e.2)

/-- Dereferencing `(*ptr).data` as a `LuaTable`: a dangling or mistyped
pointer is UB in the source; the model yields the empty table there and
every theorem supplies a valid pointer. -/
def derefTable (h : Heap) (ptr : Nat) : LuaTable :=
  match heapGet h ptr with
  | some obj =>
      match obj.data with
      | GCData.tbl t => t
      | _ => ⟨[], none⟩
  | none => ⟨[], none⟩

namespace VirtualMachine

/-- `handle_binary_op` (arithmetic.rs:92-121); the caller bumps the pc.
The `Debug`-formatted operand dump in the error message is not
reproduced. -/
def handle_binary_op (vm : VirtualMachine) (dest left right : Nat)
    (op_fn : F64 → F64 → F64) (op_name : String) :
    VirtualMachine × Except VMError Unit :=
  match vm.get_reg left, vm.get_reg right with
  | LuaValue.Number n1, LuaValue.Number n2 =>
      (vm.set_reg dest (LuaValue.Number (op_fn n1 n2)), Except.ok ())
  | _, _ =>
      (vm, Except.error (vm.error (ErrorKind.TypeError
        ("TypeMismatchException: binary operator '" ++ op_name ++
          "' is not defined for the operand types"))))

/-- `handle_div` (arithmetic.rs:26-37).  `div_fn` stands for the hardware
division `|n1, n2| n1 / n2`; the zero check compares the right operand
with `0.0` by `f64 ==` before the operation runs. -/
def handle_div (div_fn : F64 → F64 → F64) (vm : VirtualMachine)
    (dest left right : Nat) : VirtualMachine × Except VMError Unit :=
  let vm := vm.bump_pc
  match vm.get_reg right with
  | LuaValue.Number n2 =>
      if F64.beq n2 F64.zero then
        (vm, Except.error (vm.error (ErrorKind.ArithmeticError
          "ArithmeticException: division by zero")))
      else vm.handle_binary_op dest left right div_fn "division"
  | _ => vm.handle_binary_op dest left right div_fn "division"

/-- `handle_mod` (arithmetic.rs:40-51); same structure as `handle_div`
with `|n1, n2| n1 % n2`. -/
def handle_mod (mod_fn : F64 → F64 → F64) (vm : VirtualMachine)
    (dest left right : Nat) : VirtualMachine × Except VMError Unit :=
  let vm := vm.bump_pc
  match vm.get_reg right with
  | LuaValue.Number n2 =>
      if F64.beq n2 F64.zero then
        (vm, Except.error (vm.error (ErrorKind.ArithmeticError
          "ArithmeticException: modulo by zero")))
      else vm.handle_binary_op dest left right mod_fn "modulo"
  | _ => vm.handle_binary_op dest left right mod_fn "modulo"

/-- `handle_get_table` (table.rs:49-75). -/
def handle_get_table (vm : VirtualMachine) (dest t_reg k_reg : Nat) :
    VirtualMachine × Except VMError Unit :=
  let vm := vm.bump_pc
  let table_val := vm.get_reg t_reg
  let key := vm.get_reg k_reg
  match table_val with
  | LuaValue.Table ptr =>
      let lua_table := derefTable vm.heap ptr
      let result :=
        match luaMapGet lua_table.data key with
        | some v => v
        | none => LuaValue.Nil
      (vm.set_reg dest result, Except.ok ())
  | _ =>
      (vm, Except.error (vm.error (ErrorKind.TypeError
        "TypeMismatchException: attempt to perform property lookup on a non-table value")))

/-- Modelled from the spec: the upvalue-closing loop of `pop_frame`
(spec §4.6, "Closing on return"): for each `(slot, upval)` in
`out_upvalues`, in order, read the value at absolute stack index
`base_offset + slot` and transition the cell to `Closed(value)`. -/
def closeUpvals (base : Nat) (vals : List LuaValue) :
    List (Nat × Nat) → Heap → Heap
  | [], h => h
  | su :: rest, h =>
      closeUpvals base vals rest
        { h with
            upvals := h.upvals.set su.2
              ⟨LuaUpValueState.Closed (vals.getD (base + su.1) LuaValue.Nil)⟩ }

/-- Modelled from the spec: `pop_frame` is called from
`dispatch/control.rs` but not defined under `src/`.  Spec §4.5/§4.6:
popping a frame first closes every upvalue it exported (`closeUpvals`),
then removes and returns the frame; on an empty call stack it returns
`None`. -/
def pop_frame (vm : VirtualMachine) : VirtualMachine × Option StackFrame :=
  match vm.call_stack with
  | [] => (vm, none)
  | frame :: rest =>
      let heap2 := closeUpvals frame.base_offset vm.value_stack.values
        frame.out_upvalues vm.heap
      ({ vm with call_stack := rest, heap := heap2 }, some frame)

/-- `handle_return` (control.rs:107-143). -/
def handle_return (vm : VirtualMachine) (start count : Nat) :
    VirtualMachine × Except VMError Unit :=
  if count > 1 then
    (vm, Except.error (vm.error (ErrorKind.MultipleReturnValues
      "MultipleReturnValuesException: returning multiple values is not supported in this VM version")))
  else
    let results := (List.range count).map (fun i => vm.get_reg (start + i))
    match vm.pop_frame with
    | (vm2, none) =>
        (vm2, Except.error (vm2.error (ErrorKind.InternalError
          "StackUnderflowException: attempt to return from an empty call stack")))
    | (vm2, some last_frame) =>
        if vm2.call_stack.isEmpty then (vm2, Except.ok ())
        else
          let vm3 :=
            match last_frame.ret_dest with
            | some dest_idx =>
                match vm2.call_stack with
                | caller :: _ =>
                    let gs := results.enum.foldl
                      (fun g (p : Nat × LuaValue) =>
                        if dest_idx + p.1 < caller.reg_count then
                          caller.set_reg (dest_idx + p.1) p.2 g
                        else g)
                      vm2.value_stack
                    { vm2 with value_stack := gs }
                | [] => vm2
            | none => vm2
          ({ vm3 with
              value_stack := vm3.value_stack.restore last_frame.base_offset },
            Except.ok ())

end VirtualMachine

/-- Rust's `<[T]>::binary_search_by_key` bisection loop, verbatim:
`mid = left + (right - left) / 2`; `Less` moves `left` to `mid + 1`,
`Greater` moves `right` to `mid`, `Equal` returns `Ok(mid)`; exhaustion
returns `Err(left)`.  The interval shrinks every iteration, so fuel
`length + 1` never runs out.  On an unsorted slice the bisection probes
exactly as in Rust (which is what C3 exercises). -/
def binarySearchLoop (xs : List (Nat × Nat)) (key : Nat) :
    Nat → Nat → Nat → Except Nat Nat
  | left, _, 0 => Except.error left
  | left, right, fuel + 1 =>
      if left < right then
        let mid := left + (right - left) / 2
        let probe := (xs.getD mid (0, 0)).1
        if probe < key then binarySearchLoop xs key (mid + 1) right fuel
        else if key < probe then binarySearchLoop xs key left mid fuel
        else Except.ok mid
      else Except.error left

/-- `curr_frame.out_upvalues.binary_search_by_key(&slot, |(s, _)| *s)`. -/
def binary_search_by_slot (xs : List (Nat × Nat)) (key : Nat) : Except Nat Nat :=
  binarySearchLoop xs key 0 xs.length (xs.length + 1)

/-- `null_mut::<GCObject<LuaUpValue>>()` as an upvalue-store id: a
sentinel no allocation ever returns (cells are allocated sequentially
from 0 and no theorem goes near this many). -/
def NULL_UPVAL_PTR : Nat := 1000000000

/-- Accumulator of the `map` closure in `handle_fn_proto`: the closure
threads the heap (upvalue allocation), the locally collected
`out_upvalues`, and the captured pointers. -/
structure FnProtoAcc where
  heap : Heap
  outs : List (Nat × Nat)
  caps : List Nat
  deriving Repr

/-- One step of the capture loop of `handle_fn_proto` (fn_proto.rs:40-68):
`LocalVar(slot)` binary-searches the frame's `out_upvalues` by slot and
reuses on a hit, otherwise allocates a fresh `Open(base + slot)` cell and
records it; `UpVal(slot)` copies the parent's cell
(`unwrap_or(&null_mut())` on an out-of-range index). -/
def fnProtoCapture (curr_frame : StackFrame) (acc : FnProtoAcc)
    (upval : IRUpVal) : FnProtoAcc :=
  match upval.ty with
  | IRUpValType.LocalVar slot =>
      match binary_search_by_slot curr_frame.out_upvalues slot with
      | Except.ok idx =>
          { acc with
              caps := acc.caps ++ [(curr_frame.out_upvalues.getD idx (0, 0)).2] }
      | Except.error _ =>
          let reg_idx := curr_frame.reg_absolute slot
          let pr := acc.heap.alloc_upvalue_object ⟨LuaUpValueState.Open reg_idx⟩
          { heap := pr.2
            outs := acc.outs ++ [(slot, pr.1)]
            caps := acc.caps ++ [pr.1] }
  | IRUpValType.UpVal slot =>
      { acc with caps := acc.caps ++ [curr_frame.upvalues.getD slot NULL_UPVAL_PTR] }

namespace VirtualMachine

/-- `handle_fn_proto` (fn_proto.rs:9-98).  After the capture loop the
fresh `out_upvalues` are APPENDED to the frame's list, then the function
object is allocated and stored in `dest`. -/
def handle_fn_proto (vm : VirtualMachine) (dest proto_idx : Nat) :
    VirtualMachine × Except VMError Unit :=
  let vm := vm.bump_pc
  match vm.call_stack with
  | [] =>
      (vm, Except.error (vm.error (ErrorKind.InternalError
        "IllegalStateException: empty call stack")))
  | curr_frame :: rest =>
      match alGet vm.func_meta curr_frame.func_name with
      | none =>
          (vm, Except.error (vm.error (ErrorKind.InternalError
            "ResolutionException: failed to resolve metadata for current execution context")))
      | some curr_meta =>
          match curr_meta.child_protos[proto_idx]? with
          | none =>
              (vm, Except.error (vm.error (ErrorKind.InternalError
                "IndexOutOfBoundsException: function prototype index is out of range")))
          | some sub_func_name =>
              match alGet vm.func_meta sub_func_name with
              | none =>
                  (vm, Except.error (vm.error (ErrorKind.InternalError
                    "LinkageError: symbolic reference to sub-prototype could not be resolved")))
              | some sub_meta =>
                  let acc := sub_meta.upvalues_metadata.foldl
                    (fnProtoCapture curr_frame) ⟨vm.heap, [], []⟩
                  let frame2 := { curr_frame with
                    out_upvalues := curr_frame.out_upvalues ++ acc.outs }
                  let new_func : LFunction :=
                    { name := sub_func_name
                      opcodes := sub_meta.bytecode
                      constants := sub_meta.constants
                      upvalues := acc.caps
                      num_locals := sub_meta.num_locals
                      max_stack_size := sub_meta.max_stack_size }
                  let vm2 := { vm with call_stack := frame2 :: rest, heap := acc.heap }
                  match vm2.heap.alloc_function new_func with
                  | none => (vm2, Except.error (vm2.error ErrorKind.OutOfMemory))
                  | some fr =>
                      (({ vm2 with heap := fr.2 } : VirtualMachine).set_reg dest
                        (LuaValue.Function fr.1), Except.ok ())

end VirtualMachine

/-! ## Mark and sweep (`vm/mod.rs:375-504`) -/

/-- `mark_raw` (vm/mod.rs:498-504): null or already-marked pointers
return `false`; otherwise set the mark and return `true`.  A pointer not
in the object list behaves like null. -/
def markRaw (objs : List (Nat × GCObj)) (p : Nat) :
    List (Nat × GCObj) × Bool :=
  match (objs.find? (fun e => e.1 == p)).map (fun e => e.2) with
  | none => (objs, false)
  | some obj =>
      if obj.mark then (objs, false)
      else
        (objs.map (fun e => if e.1 == p then (e.1, { e.2 with mark := true }) else e),
          true)

def derefData (objs : List (Nat × GCObj)) (p : Nat) : Option GCData :=
  (objs.find? (fun e => e.1 == p)).map (fun e => e.2.data)

/-- `mark_value` (vm/mod.rs:464-497), with explicit fuel for the
recursion through the object graph (each productive call marks a fresh
object, so fuel `#objects + 1` never cuts marking short).  A function's
captured upvalue cells are traversed through their `Closed` payloads
(`Open` cells point into the already-rooted value stack); the cell store
is passed read-only as `upvals`. -/
def mark_value (upvals : List LuaUpValue) :
    Nat → List (Nat × GCObj) → LuaValue → List (Nat × GCObj)
  | 0, objs, _ => objs
  | _ + 1, objs, LuaValue.String p => (markRaw objs p).1
  | fuel + 1, objs, LuaValue.Table p =>
      let pr := markRaw objs p
      if pr.2 then
        match derefData pr.1 p with
        | some (GCData.tbl t) =>
            let o2 := t.data.foldl
              (fun o e => mark_value upvals fuel (mark_value upvals fuel o e.1) e.2)
              pr.1
            match t.metatable with
            | some mt => mark_value upvals fuel o2 (LuaValue.Table mt)
            | none => o2
        | _ => pr.1
      else pr.1
  | fuel + 1, objs, LuaValue.Function p =>
      let pr := markRaw objs p
      if pr.2 then
        match derefData pr.1 p with
        | some (GCData.func f) =>
            let o2 := f.constants.foldl (mark_value upvals fuel) pr.1
            f.upvalues.foldl
              (fun o uid =>
                match upvals[uid]? with
                | some u =>
                    match u.value with
                    | LuaUpValueState.Closed v => mark_value upvals fuel o v
                    | _ => o
                | none => o)
              o2
        | _ => pr.1
      else pr.1
  | _ + 1, objs, _ => objs

namespace VirtualMachine

/-- `mark_objects` (vm/mod.rs:375-398): the roots are the global table's
values, the value stack, every function's constant pool, and each stack
frame's captured upvalues — the string intern pool is NOT traversed.  The
frame-upvalue root is modelled from the spec (frames carry upvalue-cell
ids; marking follows `Closed` payloads), since the snapshot's
`StackFrame` type is stale there. -/
def mark_objects (vm : VirtualMachine) : VirtualMachine :=
  let fuel := vm.heap.all_objects.length + 1
  let o1 := vm.globals.foldl
    (fun o e => mark_value vm.heap.upvals fuel o e.2) vm.heap.all_objects
  let o2 := vm.value_stack.values.foldl (mark_value vm.heap.upvals fuel) o1
  let o3 := vm.func_meta.foldl
    (fun o e => e.2.constants.foldl (mark_value vm.heap.upvals fuel) o) o2
  let o4 := vm.call_stack.foldl
    (fun o f =>
      f.upvalues.foldl
        (fun o2 uid =>
          match vm.heap.upvals[uid]? with
          | some u =>
              match u.value with
              | LuaUpValueState.Closed v => mark_value vm.heap.upvals fuel o2 v
              | _ => o2
          | none => o2)
        o)
    o3
  { vm with heap := { vm.heap with all_objects := o4 } }

end VirtualMachine

/-- The sweep traversal (vm/mod.rs:409-450): marked objects survive with
their mark cleared; unmarked objects are unlinked, their size subtracted
(`saturating_sub`), and for `String` objects the intern-pool entry keyed
by the string's content is removed. -/
def sweepLoop : List (Nat × GCObj) → List (String × Nat) → Nat →
    List (Nat × GCObj) × List (String × Nat) × Nat
  | [], pool, total => ([], pool, total)
  | (p, obj) :: rest, pool, total =>
      if obj.mark then
        let r := sweepLoop rest pool total
        ((p, { obj with mark := false }) :: r.1, r.2)
      else
        let pool2 :=
          match obj.kind, obj.data with
          | ObjectKind.String, GCData.str s => pool.filter (fun e => !(e.1 == s))
          | _, _ => pool
        sweepLoop rest pool2 (total - obj.size)

namespace VirtualMachine

/-- `sweep_objects` (vm/mod.rs:400-462). -/
def sweep_objects (vm : VirtualMachine) : VirtualMachine :=
  let r := sweepLoop vm.heap.all_objects vm.heap.string_pool vm.heap.total_allocated
  { vm with heap := { vm.heap with
      all_objects := r.1
      string_pool := r.2.1
      total_allocated := r.2.2 } }

end VirtualMachine

/-! ## VM lemmas -/

namespace VirtualMachine

theorem bump_pc_call_stack {vm : VirtualMachine} {f : StackFrame}
    {rest : List StackFrame} (h : vm.call_stack = f :: rest) :
    (vm.bump_pc).call_stack = { f with pc := f.pc + 1 } :: rest := by
  simp [bump_pc, h]

theorem bump_pc_value_stack (vm : VirtualMachine) :
    (vm.bump_pc).value_stack = vm.value_stack := by
  unfold bump_pc
  cases vm.call_stack <;> rfl

theorem bump_pc_heap (vm : VirtualMachine) : (vm.bump_pc).heap = vm.heap := by
  unfold bump_pc
  cases vm.call_stack <;> rfl

theorem bump_pc_get_reg (vm : VirtualMachine) (i : Nat) :
    (vm.bump_pc).get_reg i = vm.get_reg i := by
  unfold bump_pc get_reg
  cases h : vm.call_stack <;> simp [h, StackFrame.get_reg]

theorem set_reg_value_stack {vm : VirtualMachine} {f : StackFrame}
    {rest : List StackFrame} (h : vm.call_stack = f :: rest) (i : Nat)
    (v : LuaValue) :
    (vm.set_reg i v).value_stack = ⟨vm.value_stack.values.set (f.base_offset + i) v⟩ := by
  simp [set_reg, h, StackFrame.set_reg]

theorem set_reg_call_stack {vm : VirtualMachine} {f : StackFrame}
    {rest : List StackFrame} (h : vm.call_stack = f :: rest) (i : Nat)
    (v : LuaValue) :
    (vm.set_reg i v).call_stack = f :: rest := by
  simp [set_reg, h]

end VirtualMachine

/-! ## C8: division / modulo by zero -/

/-- C8: for every execution of `Div` or `Mod` whose right-operand
register holds `Number(0.0)`, the handler raises `ArithmeticError` before
evaluating the operation — the outcome is the same for EVERY operation
function `div_fn`/`mod_fn` and every content of the left operand, and the
value stack (hence the destination register) is unchanged. -/
theorem C8_div_mod_by_zero (vm : VirtualMachine) (frame : StackFrame)
    (rest : List StackFrame) (dest left right : Nat)
    (div_fn mod_fn : F64 → F64 → F64)
    (hstack : vm.call_stack = frame :: rest)
    (hright : vm.get_reg right = LuaValue.Number F64.zero) :
    (VirtualMachine.handle_div div_fn vm dest left right).2 =
      Except.error ((vm.bump_pc).error (ErrorKind.ArithmeticError
        "ArithmeticException: division by zero")) ∧
    (VirtualMachine.handle_div div_fn vm dest left right).1.value_stack =
      vm.value_stack ∧
    (VirtualMachine.handle_mod mod_fn vm dest left right).2 =
      Except.error ((vm.bump_pc).error (ErrorKind.ArithmeticError
        "ArithmeticException: modulo by zero")) ∧
    (VirtualMachine.handle_mod mod_fn vm dest left right).1.value_stack =
      vm.value_stack := by
  have hz : F64.beq F64.zero F64.zero = true := by decide
  have hg := vm.bump_pc_get_reg right
  rw [hright] at hg
  refine ⟨?_, ?_, ?_, ?_⟩ <;>
    simp [VirtualMachine.handle_div, VirtualMachine.handle_mod, hg, hz,
      VirtualMachine.bump_pc_value_stack]

def C8frame : StackFrame := ⟨"f", 0, 3, 0, none, [], []⟩

def C8vm : VirtualMachine :=
  { call_stack := [C8frame]
    value_stack := ⟨[LuaValue.Boolean true, LuaValue.Number F64.zero, LuaValue.Nil]⟩
    globals := []
    func_meta := []
    heap := Heap.new }

theorem C8_div_mod_by_zero_witness :
    (VirtualMachine.handle_div (fun a _ => a) C8vm 2 0 1).2 =
      Except.error ((C8vm.bump_pc).error (ErrorKind.ArithmeticError
        "ArithmeticException: division by zero")) ∧
    (VirtualMachine.handle_div (fun a _ => a) C8vm 2 0 1).1.value_stack =
      C8vm.value_stack ∧
    (VirtualMachine.handle_mod (fun a _ => a) C8vm 2 0 1).2 =
      Except.error ((C8vm.bump_pc).error (ErrorKind.ArithmeticError
        "ArithmeticException: modulo by zero")) ∧
    (VirtualMachine.handle_mod (fun a _ => a) C8vm 2 0 1).1.value_stack =
      C8vm.value_stack :=
  C8_div_mod_by_zero C8vm C8frame [] 2 0 1 (fun a _ => a) (fun a _ => a)
    rfl (by decide)

/-! ## C9: `GetTable` with a missing key -/

/-- C9: for every execution of `GetTable` whose table register holds a
`Table` reference to a live table object, if the table's map has no entry
probing equal to the key, the handler succeeds (`Ok`) and stores `Nil` in
the destination register — a missing key is never a runtime error. -/
theorem C9_get_table_missing_key (vm : VirtualMachine) (frame : StackFrame)
    (rest : List StackFrame) (dest t_reg k_reg ptr : Nat) (obj : GCObj)
    (tb : LuaTable)
    (hstack : vm.call_stack = frame :: rest)
    (htab : vm.get_reg t_reg = LuaValue.Table ptr)
    (hobj : heapGet vm.heap ptr = some obj)
    (hdata : obj.data = GCData.tbl tb)
    (hmiss : luaMapGet tb.data (vm.get_reg k_reg) = none)
    (hdest : frame.base_offset + dest < vm.value_stack.values.length) :
    (vm.handle_get_table dest t_reg k_reg).2 = Except.ok () ∧
    (vm.handle_get_table dest t_reg k_reg).1.get_reg dest = LuaValue.Nil := by
  have hgt := vm.bump_pc_get_reg t_reg
  rw [htab] at hgt
  have hgk := vm.bump_pc_get_reg k_reg
  have hderef : derefTable (vm.bump_pc).heap ptr = tb := by
    rw [vm.bump_pc_heap]
    simp [derefTable, hobj, hdata]
  have hbs : (vm.bump_pc).call_stack = { frame with pc := frame.pc + 1 } :: rest :=
    VirtualMachine.bump_pc_call_stack hstack
  constructor
  · simp [VirtualMachine.handle_get_table, hgt, hgk, hderef, hmiss]
  · simp only [VirtualMachine.handle_get_table, hgt, hgk, hderef, hmiss]
    unfold VirtualMachine.get_reg
    rw [VirtualMachine.set_reg_call_stack hbs]
    rw [VirtualMachine.set_reg_value_stack hbs]
    simp only [StackFrame.get_reg, VirtualMachine.bump_pc_value_stack,
      List.getD_eq_getElem?_getD]
    rw [List.getElem?_set_eq_of_lt _ (by simpa using hdest)]
    rfl

def C9frame : StackFrame := ⟨"f", 0, 3, 0, none, [], []⟩

def C9vm : VirtualMachine :=
  { call_stack := [C9frame]
    value_stack := ⟨[LuaValue.Table 0, LuaValue.Number F64.zero, LuaValue.Boolean true]⟩
    globals := []
    func_meta := []
    heap := { Heap.new with
      all_objects := [(0, ⟨false, ObjectKind.Table, 64,
        GCData.tbl ⟨[(LuaValue.Boolean false, LuaValue.Number F64.zero)], none⟩⟩)]
      next_addr := 1 } }

theorem C9_get_table_missing_key_witness :
    (C9vm.handle_get_table 2 0 1).2 = Except.ok () ∧
    (C9vm.handle_get_table 2 0 1).1.get_reg 2 = LuaValue.Nil :=
  C9_get_table_missing_key C9vm C9frame [] 2 0 1 0
    ⟨false, ObjectKind.Table, 64,
      GCData.tbl ⟨[(LuaValue.Boolean false, LuaValue.Number F64.zero)], none⟩⟩
    ⟨[(LuaValue.Boolean false, LuaValue.Number F64.zero)], none⟩
    rfl (by decide) (by decide) rfl (by decide) (by decide)

/-! ## C1: top-level return -/

def C1frame : StackFrame := ⟨"_start", 0, 6, 3, none, [], []⟩

def C1vm : VirtualMachine :=
  { call_stack := [C1frame]
    value_stack := ⟨List.replicate 6 LuaValue.Nil⟩
    globals := []
    func_meta := []
    heap := Heap.new }

/-- C1: counterexample — when `_start` executes `Return` and its frame is
popped, `handle_return` returns `Ok` from the early `is_empty` branch
BEFORE calling `GlobalStack::restore`, so the call stack is empty but the
shared value stack keeps its 6 entries instead of being truncated to
length 0. -/
theorem C1_counterexample_stack_not_truncated :
    (C1vm.handle_return 0 0).2 = Except.ok () ∧
    (C1vm.handle_return 0 0).1.call_stack = [] ∧
    (C1vm.handle_return 0 0).1.value_stack.values.length = 6 :=
  ⟨rfl, rfl, rfl⟩

/-- C1 (amended): after the top-level `Return` pops the last frame, the
call stack is empty and the handler succeeds, but the early return at
control.rs:125-127 skips `GlobalStack::restore`: the value stack is left
exactly as it was, not truncated to length 0. -/
theorem C1_top_level_return_skips_restore (vm : VirtualMachine)
    (frame : StackFrame) (start count : Nat)
    (hstack : vm.call_stack = [frame]) (hcount : count ≤ 1) :
    (vm.handle_return start count).2 = Except.ok () ∧
    (vm.handle_return start count).1.call_stack = [] ∧
    (vm.handle_return start count).1.value_stack = vm.value_stack := by
  have hc1 : ¬ count > 1 := by omega
  have hpop : vm.pop_frame =
      ({ vm with
          call_stack := []
          heap := VirtualMachine.closeUpvals frame.base_offset
            vm.value_stack.values frame.out_upvalues vm.heap },
        some frame) := by
    simp [VirtualMachine.pop_frame, hstack]
  refine ⟨?_, ?_, ?_⟩ <;>
    simp [VirtualMachine.handle_return, hc1, hpop]

theorem C1_top_level_return_skips_restore_witness :
    (C1vm.handle_return 0 0).2 = Except.ok () ∧
    (C1vm.handle_return 0 0).1.call_stack = [] ∧
    (C1vm.handle_return 0 0).1.value_stack = C1vm.value_stack :=
  C1_top_level_return_skips_restore C1vm C1frame 0 0 rfl (by decide)

/-! ## C10: return-value writeback stays inside the caller's window -/

/-- The possible shapes of the value stack after a non-top-level
`handle_return`: either pure truncation to the popped frame's base, or
one guarded write into the caller's window followed by that truncation;
an out-of-range `ret_dest` degenerates to pure truncation. -/
theorem handle_return_value_stack_cases (vm : VirtualMachine)
    (popped caller : StackFrame) (rest : List StackFrame) (start count : Nat)
    (hstack : vm.call_stack = popped :: caller :: rest)
    (hcount : count ≤ 1) :
    (vm.handle_return start count).2 = Except.ok () ∧
    ((vm.handle_return start count).1.value_stack.values =
        vm.value_stack.values.take popped.base_offset ∨
      ∃ d v, popped.ret_dest = some d ∧ d < caller.reg_count ∧
        (vm.handle_return start count).1.value_stack.values =
          (vm.value_stack.values.set (caller.base_offset + d) v).take
            popped.base_offset) ∧
    (∀ d, popped.ret_dest = some d → caller.reg_count ≤ d →
      (vm.handle_return start count).1.value_stack.values =
        vm.value_stack.values.take popped.base_offset) := by
  have hc1 : ¬ count > 1 := by omega
  have hpop : vm.pop_frame =
      ({ vm with
          call_stack := caller :: rest
          heap := VirtualMachine.closeUpvals popped.base_offset
            vm.value_stack.values popped.out_upvalues vm.heap },
        some popped) := by
    simp [VirtualMachine.pop_frame, hstack]
  unfold VirtualMachine.handle_return
  rw [if_neg hc1, hpop]
  cases hrd : popped.ret_dest with
  | none =>
      refine ⟨by simp, Or.inl (by simp [hrd, GlobalStack.restore]), ?_⟩
      intro d hd
      simp at hd
  | some d =>
      interval_cases count
      · refine ⟨by simp, Or.inl ?_, fun d' hd' hge => ?_⟩ <;>
          simp [hrd, GlobalStack.restore]
      · have henum : (List.enum ((List.range 1).map
            (fun i => vm.get_reg (start + i)))) = [(0, vm.get_reg start)] := rfl
        by_cases hd : d < caller.reg_count
        · refine ⟨by simp, Or.inr ⟨d, vm.get_reg start, rfl, hd, ?_⟩,
            fun d' hd' hge => ?_⟩
          · simp [hrd, henum, hd, GlobalStack.restore, StackFrame.set_reg]
          · have hdd : d = d' := Option.some.inj hd'
            omega
        · refine ⟨by simp, Or.inl ?_, fun d' hd' hge => ?_⟩ <;>
            simp [hrd, henum, hd, GlobalStack.restore]

/-- C10: when `Return` copies its return value into the caller, the write
happens only if `ret_dest + i < caller.reg_count`, so every surviving
stack position whose content changed lies inside the caller's register
window `[base_offset, base_offset + reg_count)`; with an out-of-range
`ret_dest` the value is silently discarded and the stack is merely
truncated. -/
theorem C10_return_writeback_guard (vm : VirtualMachine)
    (popped caller : StackFrame) (rest : List StackFrame) (start count : Nat)
    (hstack : vm.call_stack = popped :: caller :: rest)
    (hcount : count ≤ 1) :
    (vm.handle_return start count).2 = Except.ok () ∧
    (∀ j : Nat, (vm.handle_return start count).1.value_stack.values[j]? ≠ none →
      (vm.handle_return start count).1.value_stack.values[j]? ≠
        vm.value_stack.values[j]? →
      caller.base_offset ≤ j ∧ j < caller.base_offset + caller.reg_count) ∧
    (∀ d, popped.ret_dest = some d → caller.reg_count ≤ d →
      (vm.handle_return start count).1.value_stack.values =
        vm.value_stack.values.take popped.base_offset) := by
  obtain ⟨hok, hcases, hdiscard⟩ :=
    handle_return_value_stack_cases vm popped caller rest start count hstack hcount
  refine ⟨hok, ?_, hdiscard⟩
  intro j hnone hdiff
  have hjlt : j < popped.base_offset := by
    by_contra hge
    push_neg at hge
    rcases hcases with heq | ⟨d, v, _, _, heq⟩ <;>
      [skip; skip] <;>
      · rw [heq] at hnone
        exact hnone (List.getElem?_eq_none (by
          simpa [List.length_take] using Nat.le_trans (Nat.min_le_left _ _) hge))
  rcases hcases with heq | ⟨d, v, hrd, hdlt, heq⟩
  · rw [heq, List.getElem?_take_of_lt hjlt] at hdiff
    exact absurd rfl hdiff
  · rw [heq, List.getElem?_take_of_lt hjlt] at hdiff
    by_cases hj : caller.base_offset + d = j
    · omega
    · rw [List.getElem?_set_ne hj] at hdiff
      exact absurd rfl hdiff

def C10popped : StackFrame := ⟨"g", 4, 3, 2, some 1, [], []⟩

def C10caller : StackFrame := ⟨"f", 0, 4, 5, none, [], []⟩

def C10vm : VirtualMachine :=
  { call_stack := [C10popped, C10caller]
    value_stack := ⟨[LuaValue.Nil, LuaValue.Nil, LuaValue.Nil, LuaValue.Nil,
      LuaValue.Number F64.zero, LuaValue.Boolean true, LuaValue.Nil]⟩
    globals := []
    func_meta := []
    heap := Heap.new }

theorem C10_return_writeback_guard_witness :
    (C10vm.handle_return 0 1).2 = Except.ok () ∧
    (∀ j : Nat, (C10vm.handle_return 0 1).1.value_stack.values[j]? ≠ none →
      (C10vm.handle_return 0 1).1.value_stack.values[j]? ≠
        C10vm.value_stack.values[j]? →
      C10caller.base_offset ≤ j ∧ j < C10caller.base_offset + C10caller.reg_count) ∧
    (∀ d, C10popped.ret_dest = some d → C10caller.reg_count ≤ d →
      (C10vm.handle_return 0 1).1.value_stack.values =
        C10vm.value_stack.values.take C10popped.base_offset) :=
  C10_return_writeback_guard C10vm C10popped C10caller [] 0 1 rfl (by decide)

/-! ## C2: closing upvalues on return -/

theorem closeUpvals_length (b : Nat) (vals : List LuaValue)
    (outs : List (Nat × Nat)) (h : Heap) :
    (VirtualMachine.closeUpvals b vals outs h).upvals.length = h.upvals.length := by
  induction outs generalizing h with
  | nil => rfl
  | cons su rest ih => simp [VirtualMachine.closeUpvals, ih]

theorem closeUpvals_not_mem {uid : Nat} (b : Nat) (vals : List LuaValue)
    (outs : List (Nat × Nat)) :
    ∀ (h : Heap), uid ∉ outs.map (fun su => su.2) →
      (VirtualMachine.closeUpvals b vals outs h).upvals[uid]? = h.upvals[uid]? := by
  induction outs with
  | nil => intro h _; rfl
  | cons su rest ih =>
      intro h huid
      simp only [List.map_cons, List.mem_cons, not_or] at huid
      simp only [VirtualMachine.closeUpvals]
      rw [ih _ huid.2]
      exact List.getElem?_set_ne (fun he => huid.1 he.symm)

theorem closeUpvals_mem {slot uid : Nat} (b : Nat) (vals : List LuaValue)
    (outs : List (Nat × Nat)) :
    ∀ (h : Heap), (outs.map (fun su => su.2)).Nodup →
      (slot, uid) ∈ outs → uid < h.upvals.length →
      (VirtualMachine.closeUpvals b vals outs h).upvals[uid]? =
        some ⟨LuaUpValueState.Closed (vals.getD (b + slot) LuaValue.Nil)⟩ := by
  induction outs with
  | nil => intro h _ hmem _; cases hmem
  | cons su rest ih =>
      intro h hnd hmem hlt
      simp only [List.map_cons, List.nodup_cons] at hnd
      rcases List.mem_cons.mp hmem with heq | hmem2
      · subst heq
        simp only [VirtualMachine.closeUpvals]
        rw [closeUpvals_not_mem _ _ _ _ (by simpa using hnd.1)]
        simpa using List.getElem?_set_eq_of_lt _ (by simpa using hlt)
      · simp only [VirtualMachine.closeUpvals]
        exact ih _ hnd.2 hmem2 (by simpa using hlt)

/-- The heap after a successful `handle_return` is exactly the original
heap with the popped frame's exported upvalues closed; the subsequent
write-back and stack truncation never touch the heap. -/
theorem handle_return_heap (vm : VirtualMachine) (popped : StackFrame)
    (rest : List StackFrame) (start count : Nat)
    (hstack : vm.call_stack = popped :: rest) (hcount : count ≤ 1) :
    (vm.handle_return start count).2 = Except.ok () ∧
    (vm.handle_return start count).1.heap =
      VirtualMachine.closeUpvals popped.base_offset vm.value_stack.values
        popped.out_upvalues vm.heap := by
  have hc1 : ¬ count > 1 := by omega
  have hpop : vm.pop_frame =
      ({ vm with
          call_stack := rest
          heap := VirtualMachine.closeUpvals popped.base_offset
            vm.value_stack.values popped.out_upvalues vm.heap },
        some popped) := by
    simp [VirtualMachine.pop_frame, hstack]
  unfold VirtualMachine.handle_return
  rw [if_neg hc1, hpop]
  cases rest with
  | nil => exact ⟨rfl, rfl⟩
  | cons caller tail =>
      cases hrd : popped.ret_dest <;>
        simp [hrd, GlobalStack.restore]

/-- C2: on every frame pop performed by `Return`, each `(slot, upval)` in
the popped frame's `out_upvalues` is transitioned to `Closed` holding the
value read from absolute stack index `base_offset + slot` (read BEFORE
the truncation, i.e. from the incoming value stack); consequently no
upvalue cell remains `Open` into the popped frame's register window,
provided the frame's exported cells are live, pairwise distinct, and
every `Open` cell into the window is registered in `out_upvalues`. -/
theorem C2_upvalues_closed_on_return (vm : VirtualMachine)
    (popped : StackFrame) (rest : List StackFrame) (start count : Nat)
    (hstack : vm.call_stack = popped :: rest)
    (hcount : count ≤ 1)
    (hvalid : ∀ su ∈ popped.out_upvalues, su.2 < vm.heap.upvals.length)
    (hnd : (popped.out_upvalues.map (fun su => su.2)).Nodup)
    (hreg : ∀ (uid idx : Nat), vm.heap.upvals[uid]? =
        some ⟨LuaUpValueState.Open idx⟩ →
      popped.base_offset ≤ idx → idx < popped.base_offset + popped.reg_count →
      ∃ slot, (slot, uid) ∈ popped.out_upvalues ∧
        popped.base_offset + slot = idx) :
    (vm.handle_return start count).2 = Except.ok () ∧
    (∀ su ∈ popped.out_upvalues,
      (vm.handle_return start count).1.heap.upvals[su.2]? =
        some ⟨LuaUpValueState.Closed
          (vm.value_stack.values.getD (popped.base_offset + su.1)
            LuaValue.Nil)⟩) ∧
    (∀ (uid idx : Nat),
      (vm.handle_return start count).1.heap.upvals[uid]? =
        some ⟨LuaUpValueState.Open idx⟩ →
      ¬(popped.base_offset ≤ idx ∧
          idx < popped.base_offset + popped.reg_count)) := by
  obtain ⟨hok, hheap⟩ :=
    handle_return_heap vm popped rest start count hstack hcount
  refine ⟨hok, ?_, ?_⟩
  · intro su hsu
    rw [hheap]
    exact closeUpvals_mem _ _ _ _ hnd (by simpa using hsu) (hvalid su hsu)
  · rintro uid idx hopen ⟨h1, h2⟩
    rw [hheap] at hopen
    by_cases hin : uid ∈ popped.out_upvalues.map (fun su => su.2)
    · obtain ⟨su, hsu, hsnd⟩ := List.mem_map.mp hin
      have hmem : (su.1, uid) ∈ popped.out_upvalues := by
        rw [← hsnd]
        simpa using hsu
      have hclosed := closeUpvals_mem popped.base_offset
        vm.value_stack.values popped.out_upvalues vm.heap hnd hmem
        (hsnd ▸ hvalid su hsu)
      rw [hclosed] at hopen
      cases hopen
    · rw [closeUpvals_not_mem _ _ _ _ hin] at hopen
      obtain ⟨slot, hmem, _⟩ := hreg uid idx hopen h1 h2
      exact hin (List.mem_map.mpr ⟨(slot, uid), hmem, rfl⟩)

def C2popped : StackFrame := ⟨"g", 0, 2, 1, none, [], [(0, 0), (1, 1)]⟩

def C2vm : VirtualMachine :=
  { call_stack := [C2popped]
    value_stack := ⟨[LuaValue.Boolean true, LuaValue.Number F64.zero]⟩
    globals := []
    func_meta := []
    heap := { Heap.new with
      upvals := [⟨LuaUpValueState.Open 0⟩, ⟨LuaUpValueState.Open 1⟩] } }

theorem C2_upvalues_closed_on_return_witness :
    (C2vm.handle_return 0 0).2 = Except.ok () ∧
    (∀ su ∈ C2popped.out_upvalues,
      (C2vm.handle_return 0 0).1.heap.upvals[su.2]? =
        some ⟨LuaUpValueState.Closed
          (C2vm.value_stack.values.getD (C2popped.base_offset + su.1)
            LuaValue.Nil)⟩) ∧
    (∀ (uid idx : Nat),
      (C2vm.handle_return 0 0).1.heap.upvals[uid]? =
        some ⟨LuaUpValueState.Open idx⟩ →
      ¬(C2popped.base_offset ≤ idx ∧
          idx < C2popped.base_offset + C2popped.reg_count)) :=
  C2_upvalues_closed_on_return C2vm C2popped [] 0 0 rfl (by decide)
    (by decide) (by decide)
    (by
      intro uid idx h h1 h2
      have huid : uid < 2 := by
        by_contra hge
        rw [List.getElem?_eq_none (by simpa using Nat.le_of_not_lt hge)] at h
        cases h
      interval_cases uid
      · have hidx : idx = 0 := by
          simp [C2vm] at h
          omega
        exact ⟨0, by decide, by simp only [C2popped]; omega⟩
      · have hidx : idx = 1 := by
          simp [C2vm] at h
          omega
        exact ⟨1, by decide, by simp only [C2popped]; omega⟩)

/-! ## C3: `FnProto` upvalue capture -/

def C3meta (ups : List IRUpVal) (protos : List String) : FuncMetadata :=
  { bytecode := []
    constants := []
    num_locals := 0
    max_stack_size := 0
    upvalues_metadata := ups
    child_protos := protos }

def C3vm : VirtualMachine :=
  { call_stack := [⟨"main", 0, 5, 0, none, [], []⟩]
    value_stack := ⟨List.replicate 5 LuaValue.Nil⟩
    globals := []
    func_meta :=
      [("main", C3meta [] ["a", "b", "c"]),
       ("a", C3meta [⟨0, IRUpValType.LocalVar 1⟩] []),
       ("b", C3meta [⟨0, IRUpValType.LocalVar 0⟩] []),
       ("c", C3meta [⟨0, IRUpValType.LocalVar 1⟩] [])]
    heap := Heap.new }

/-- C3: code bug — `handle_fn_proto` APPENDS freshly captured upvalues to
`out_upvalues` (fn_proto.rs:76-80) instead of inserting in slot order, so
after a frame creates closures over local slots 1, 0, 1 (in that order)
its `out_upvalues` is the unsorted `[(1,·), (0,·), (1,·)]`; the
`binary_search_by_key` over that unsorted list misses the existing slot-1
entry (probing slot 0 at the midpoint), so a SECOND upvalue cell (id 2)
is allocated for slot 1 and the two closures capturing that same local
(`a` and `c`) hold distinct cells 0 and 2 — no sharing, contradicting
both the sortedness and the reuse halves of the claim. -/
theorem C3_fn_proto_unsorted_and_no_sharing :
    ((((C3vm.handle_fn_proto 2 0).1.handle_fn_proto 3 1).1.handle_fn_proto
        4 2).1.call_stack.map (fun f => f.out_upvalues) =
      [[(1, 0), (0, 1), (1, 2)]]) ∧
    (((C3vm.handle_fn_proto 2 0).1.handle_fn_proto 3 1).1.call_stack.map
        (fun f => f.out_upvalues) = [[(1, 0), (0, 1)]]) ∧
    ((((C3vm.handle_fn_proto 2 0).1.handle_fn_proto 3 1).1.handle_fn_proto
        4 2).1.heap.upvals =
      [⟨LuaUpValueState.Open 1⟩, ⟨LuaUpValueState.Open 0⟩,
        ⟨LuaUpValueState.Open 1⟩]) ∧
    ((((C3vm.handle_fn_proto 2 0).1.handle_fn_proto 3 1).1.handle_fn_proto
        4 2).1.get_reg 2 = LuaValue.Function 0) ∧
    ((((C3vm.handle_fn_proto 2 0).1.handle_fn_proto 3 1).1.handle_fn_proto
        4 2).1.get_reg 4 = LuaValue.Function 2) ∧
    (∃ fa fc : LFunction,
      derefData ((((C3vm.handle_fn_proto 2 0).1.handle_fn_proto
          3 1).1.handle_fn_proto 4 2).1.heap.all_objects) 0 =
        some (GCData.func fa) ∧
      derefData ((((C3vm.handle_fn_proto 2 0).1.handle_fn_proto
          3 1).1.handle_fn_proto 4 2).1.heap.all_objects) 2 =
        some (GCData.func fc) ∧
      fa.name = "a" ∧ fc.name = "c" ∧ fa.upvalues = [0] ∧ fc.upvalues = [2]) := by
  exact ⟨rfl, rfl, rfl, rfl, rfl, ⟨_, _, rfl, rfl, rfl, rfl, rfl, rfl⟩⟩

/-! ## C7: GC mark roots and sweep -/

theorem assoc_key_unique {α β : Type} {l : List (α × β)}
    (hnd : (l.map Prod.fst).Nodup) {p : α} {a b : β}
    (ha : (p, a) ∈ l) (hb : (p, b) ∈ l) : a = b := by
  induction l with
  | nil => cases ha
  | cons e rest ih =>
      simp only [List.map_cons, List.nodup_cons] at hnd
      rcases List.mem_cons.mp ha with rfl | ha2
      · rcases List.mem_cons.mp hb with heb | hb2
        · exact (congrArg Prod.snd heb).symm
        · exact absurd (List.mem_map.mpr ⟨(p, b), hb2, rfl⟩) hnd.1
      · rcases List.mem_cons.mp hb with heb | hb2
        · subst heb
          exact absurd (List.mem_map.mpr ⟨(p, a), ha2, rfl⟩) hnd.1
        · exact ih hnd.2 ha2 hb2

theorem sweepLoop_mem_marked :
    ∀ (objs : List (Nat × GCObj)) (pool : List (String × Nat)) (total : Nat)
      {p : Nat} {o : GCObj}, (p, o) ∈ objs → o.mark = true →
      (p, { o with mark := false }) ∈ (sweepLoop objs pool total).1 := by
  intro objs
  induction objs with
  | nil => intro pool total p o hmem; cases hmem
  | cons qo rest ih =>
      intro pool total p o hmem hmark
      obtain ⟨q, ob⟩ := qo
      simp only [sweepLoop]
      by_cases hb : ob.mark
      · rw [if_pos hb]
        rcases List.mem_cons.mp hmem with heq | hmem2
        · injection heq with h1 h2
          subst h1
          subst h2
          exact List.mem_cons_self _ _
        · exact List.mem_cons_of_mem _ (ih pool total hmem2 hmark)
      · rw [if_neg hb]
        rcases List.mem_cons.mp hmem with heq | hmem2
        · injection heq with h1 h2
          subst h2
          exact absurd hmark hb
        · exact ih _ _ hmem2 hmark

theorem sweepLoop_mem_inv :
    ∀ (objs : List (Nat × GCObj)) (pool : List (String × Nat)) (total : Nat)
      {p : Nat} {o' : GCObj}, (p, o') ∈ (sweepLoop objs pool total).1 →
      ∃ o, (p, o) ∈ objs ∧ o.mark = true ∧ o' = { o with mark := false } := by
  intro objs
  induction objs with
  | nil => intro pool total p o' hmem; cases hmem
  | cons qo rest ih =>
      intro pool total p o' hmem
      obtain ⟨q, ob⟩ := qo
      simp only [sweepLoop] at hmem
      by_cases hb : ob.mark
      · rw [if_pos hb] at hmem
        rcases List.mem_cons.mp hmem with heq | hmem2
        · injection heq with h1 h2
          subst h1
          exact ⟨ob, List.mem_cons_self _ _, hb, h2⟩
        · obtain ⟨o, ho, hom, he⟩ := ih pool total hmem2
          exact ⟨o, List.mem_cons_of_mem _ ho, hom, he⟩
      · rw [if_neg hb] at hmem
        obtain ⟨o, ho, hom, he⟩ := ih _ _ hmem
        exact ⟨o, List.mem_cons_of_mem _ ho, hom, he⟩

theorem sweepLoop_pool_mem (e : String × Nat) :
    ∀ (objs : List (Nat × GCObj)) (pool : List (String × Nat)) (total : Nat),
      e ∈ (sweepLoop objs pool total).2.1 ↔
        e ∈ pool ∧ ∀ po ∈ objs,
          ¬(po.2.mark = false ∧ po.2.kind = ObjectKind.String ∧
            po.2.data = GCData.str e.1) := by
  intro objs
  induction objs with
  | nil => intro pool total; simp [sweepLoop]
  | cons qo rest ih =>
      intro pool total
      obtain ⟨q, ob⟩ := qo
      simp only [sweepLoop]
      by_cases hb : ob.mark
      · rw [if_pos hb]
        show e ∈ (sweepLoop rest pool total).2.1 ↔ _
        rw [ih pool total]
        constructor
        · rintro ⟨hp, hrest⟩
          refine ⟨hp, fun po hpo => ?_⟩
          rcases List.mem_cons.mp hpo with heq | hpo2
          · subst heq
            rintro ⟨hm, _, _⟩
            exact absurd (hm.symm.trans hb) (by decide)
          · exact hrest po hpo2
        · rintro ⟨hp, hall⟩
          exact ⟨hp, fun po hpo => hall po (List.mem_cons_of_mem _ hpo)⟩
      · rw [if_neg hb]
        have hbf : ob.mark = false := by simpa using hb
        cases hk : ob.kind <;> cases hd : ob.data <;> rw [ih _ _]
        next s =>
          constructor
          · rintro ⟨hp, hrest⟩
            have hp2 : e ∈ List.filter (fun x => !(x.1 == s)) pool := hp
            have hp3 := List.mem_filter.mp hp2
            refine ⟨hp3.1, fun po hpo => ?_⟩
            rcases List.mem_cons.mp hpo with heq | hpo2
            · subst heq
              rintro ⟨_, _, hd2⟩
              rw [hd] at hd2
              obtain rfl := (GCData.str.inj hd2).symm
              have hne := hp3.2
              simp at hne
            · exact hrest po hpo2
          · rintro ⟨hp, hall⟩
            have hhead := hall (q, ob) (List.mem_cons_self _ _)
            refine ⟨?_, fun po hpo => hall po (List.mem_cons_of_mem _ hpo)⟩
            show e ∈ List.filter (fun x => !(x.1 == s)) pool
            refine List.mem_filter.mpr ⟨hp, ?_⟩
            simp only [Bool.not_eq_true', beq_eq_false_iff_ne, ne_eq]
            intro hee
            exact hhead ⟨hbf, hk, by rw [hd, hee]⟩
        all_goals
          refine ⟨fun h => ⟨h.1, fun po hpo => ?_⟩,
            fun h => ⟨h.1, fun po hpo => h.2 po (List.mem_cons_of_mem _ hpo)⟩⟩
        all_goals
          rcases List.mem_cons.mp hpo with heq | hpo2
        all_goals
          try exact h.2 po hpo2
        all_goals
          subst heq
          rintro ⟨_, hk2, hd2⟩
          have hk3 : ob.kind = ObjectKind.String := hk2
          have hd3 : ob.data = GCData.str e.1 := hd2
          rw [hk] at hk3
          rw [hd] at hd3
          first
          | exact absurd hk3 (by decide)
          | exact absurd hd3 (fun hh => by cases hh)

def C7vm : VirtualMachine :=
  { call_stack := []
    value_stack := ⟨[]⟩
    globals := []
    func_meta := []
    heap := { all_objects := [(0, ⟨false, ObjectKind.String, 54, GCData.str "orphan"⟩)]
              string_pool := [("orphan", 0)]
              upvals := []
              total_allocated := 54
              threshold := VM_THRESHOLD
              max_allocated := 54
              next_addr := 1 } }

/-- C7: counterexample — a string object referenced ONLY from the intern
map (`string_pool`) is NOT marked by `mark_objects` (the pool is not in
the root set at vm/mod.rs:375-398), and the following sweep reclaims it
and purges its pool entry; the claim says it would be marked and never
reclaimed. -/
theorem C7_counterexample_intern_not_root :
    ((C7vm.mark_objects).heap.all_objects =
      [(0, ⟨false, ObjectKind.String, 54, GCData.str "orphan"⟩)]) ∧
    ((C7vm.mark_objects).heap.string_pool = [("orphan", 0)]) ∧
    (((C7vm.mark_objects).sweep_objects).heap.all_objects = []) ∧
    (((C7vm.mark_objects).sweep_objects).heap.string_pool = []) :=
  ⟨rfl, rfl, rfl, rfl⟩

/-- C7 (amended): the string intern map is NOT a root of the mark phase
(see the counterexample: a pool-only string stays unmarked and is
reclaimed).  What the GC cycle does guarantee: the sweep removes every
unmarked object, keeps every marked object with its mark cleared, and
purges the intern entries of reclaimed strings, so that after
`mark_objects` followed by `sweep_objects` the intern map references only
surviving objects (assuming distinct heap addresses and a pool that
pointed at live string objects). -/
theorem C7_sweep_reclaims_and_purges_intern (vm : VirtualMachine)
    (hnd : (((vm.mark_objects).heap.all_objects).map Prod.fst).Nodup)
    (hvalid : ∀ e ∈ (vm.mark_objects).heap.string_pool,
      ∃ obj, ((e.2 : Nat), obj) ∈ (vm.mark_objects).heap.all_objects ∧
        obj.kind = ObjectKind.String ∧ obj.data = GCData.str e.1) :
    (∀ p obj, (p, obj) ∈ (vm.mark_objects).heap.all_objects →
      obj.mark = false →
      ∀ obj', (p, obj') ∉ ((vm.mark_objects).sweep_objects).heap.all_objects) ∧
    (∀ p obj, (p, obj) ∈ (vm.mark_objects).heap.all_objects →
      obj.mark = true →
      (p, { obj with mark := false }) ∈
        ((vm.mark_objects).sweep_objects).heap.all_objects) ∧
    (∀ e ∈ ((vm.mark_objects).sweep_objects).heap.string_pool,
      ∃ obj, ((e.2 : Nat), obj) ∈
          ((vm.mark_objects).sweep_objects).heap.all_objects ∧
        obj.kind = ObjectKind.String ∧ obj.data = GCData.str e.1) := by
  refine ⟨?_, ?_, ?_⟩
  · intro p obj hmem hunm obj' hmem'
    obtain ⟨o, ho, hom, _⟩ := sweepLoop_mem_inv _ _ _ hmem'
    have : o = obj := assoc_key_unique hnd ho hmem
    rw [this] at hom
    rw [hom] at hunm
    cases hunm
  · intro p obj hmem hm
    exact sweepLoop_mem_marked _ _ _ hmem hm
  · intro e he
    obtain ⟨hp, hno⟩ := (sweepLoop_pool_mem e _ _ _).mp he
    obtain ⟨obj, hmem, hkind, hdata⟩ := hvalid e hp
    cases hm : obj.mark with
    | false => exact absurd ⟨hm, hkind, hdata⟩ (hno (e.2, obj) hmem)
    | true =>
        exact ⟨{ obj with mark := false },
          sweepLoop_mem_marked _ _ _ hmem hm, hkind, hdata⟩

def C7Wvm : VirtualMachine :=
  { call_stack := []
    value_stack := ⟨[]⟩
    globals := [("x", LuaValue.String 0)]
    func_meta := []
    heap := { all_objects :=
                [(0, ⟨false, ObjectKind.String, 52, GCData.str "live"⟩),
                 (1, ⟨false, ObjectKind.String, 52, GCData.str "dead"⟩)]
              string_pool := [("live", 0), ("dead", 1)]
              upvals := []
              total_allocated := 104
              threshold := VM_THRESHOLD
              max_allocated := 104
              next_addr := 2 } }

theorem C7_sweep_reclaims_and_purges_intern_witness :
    (∀ p obj, (p, obj) ∈ (C7Wvm.mark_objects).heap.all_objects →
      obj.mark = false →
      ∀ obj', (p, obj') ∉ ((C7Wvm.mark_objects).sweep_objects).heap.all_objects) ∧
    (∀ p obj, (p, obj) ∈ (C7Wvm.mark_objects).heap.all_objects →
      obj.mark = true →
      (p, { obj with mark := false }) ∈
        ((C7Wvm.mark_objects).sweep_objects).heap.all_objects) ∧
    (∀ e ∈ ((C7Wvm.mark_objects).sweep_objects).heap.string_pool,
      ∃ obj, ((e.2 : Nat), obj) ∈
          ((C7Wvm.mark_objects).sweep_objects).heap.all_objects ∧
        obj.kind = ObjectKind.String ∧ obj.data = GCData.str e.1) :=
  C7_sweep_reclaims_and_purges_intern C7Wvm (by decide)
    (by
      intro e he
      have he2 : e = ("live", 0) ∨ e = ("dead", 1) := by
        have : (C7Wvm.mark_objects).heap.string_pool = [("live", 0), ("dead", 1)] := rfl
        rw [this] at he
        simpa using he
      rcases he2 with rfl | rfl
      · exact ⟨⟨true, ObjectKind.String, 52, GCData.str "live"⟩, by decide, rfl, rfl⟩
      · exact ⟨⟨false, ObjectKind.String, 52, GCData.str "dead"⟩, by decide, rfl, rfl⟩)

end Myula
